import Mathlib

/-!
Verification of the MuMIDI tokenizer (`miditok/tokenizations/mumidi.py`).

The Python source is shallowly embedded: machine integers become `Nat`/`Int`,
token rows become a structured record faithful to the `"<Type>_<Value>"`
positional-list rows of the source, fallible operations return `Except`.
The embedding covers `track_to_tokens`, `_midi_to_tokens` (encode),
`tokens_to_midi` (decode), `tokens_errors` (validator), the token-type
transition graph, and the bar-embedding capacity growth.
-/

namespace MuMIDIVerif

instance {ε α : Type} [DecidableEq ε] [DecidableEq α] : DecidableEq (Except ε α) := fun a b =>
  match a, b with
  | .ok x, .ok y =>
    if h : x = y then .isTrue (by rw [h]) else .isFalse (by intro hh; cases hh; exact h rfl)
  | .error x, .error y =>
    if h : x = y then .isTrue (by rw [h]) else .isFalse (by intro hh; cases hh; exact h rfl)
  | .ok _, .error _ => .isFalse (by intro hh; cases hh)
  | .error _, .ok _ => .isFalse (by intro hh; cases hh)

/-! ### Duration quantization

`track_to_tokens` picks a duration bin with `np.argmin(np.abs(dur_bins - duration))`:
the first index of the bin table minimizing the absolute distance to the raw duration.
-/

/-- Absolute distance `|bin - d|` between a bin (a tick count) and a raw duration
`d` (an integer, as the Python subtraction `note.end - note.start` may be negative). -/
def distTo (d : Int) (bin : Nat) : Nat := ((bin : Int) - d).natAbs

/-- Embedding of `np.argmin(np.abs(dur_bins - duration))`: index of the first bin
of minimal absolute distance to `d` (`np.argmin` returns the first minimal index,
and `0` on an empty array after numpy would raise; the empty case is never used). -/
def argminAbs (d : Int) : List Nat → Nat
  | [] => 0
  | [_] => 0
  | b :: c :: cs =>
    if distTo d b ≤ distTo d ((c :: cs).getD (argminAbs d (c :: cs)) 0) then 0
    else argminAbs d (c :: cs) + 1

/-- The duration bin selected by the source's `argmin` search for raw duration `d`. -/
def nearestDurBin (bins : List Nat) (d : Int) : Nat := bins.getD (argminAbs d bins) 0

theorem argminAbs_lt_length (d : Int) (bins : List Nat) (h : bins ≠ []) :
    argminAbs d bins < bins.length := by
  induction bins with
  | nil => exact absurd rfl h
  | cons b rest ih =>
    cases rest with
    | nil => simp [argminAbs]
    | cons c cs =>
      have hlen := ih (by simp)
      rw [argminAbs]
      split
      · simp
      · simp only [List.length_cons] at hlen ⊢
        omega

theorem argminAbs_min (d : Int) (bins : List Nat) (i : Nat) (hi : i < bins.length) :
    distTo d (bins.getD (argminAbs d bins) 0) ≤ distTo d (bins.getD i 0) := by
  induction bins generalizing i with
  | nil => simp at hi
  | cons b rest ih =>
    cases rest with
    | nil =>
      cases i with
      | zero => simp [argminAbs]
      | succ i' => simp at hi
    | cons c cs =>
      by_cases hc : distTo d b ≤ distTo d ((c :: cs).getD (argminAbs d (c :: cs)) 0)
      · simp only [argminAbs, hc, if_true, List.getD_cons_zero]
        cases i with
        | zero => simp
        | succ i' =>
          have hi' : i' < (c :: cs).length := by simpa using hi
          exact le_trans hc (by simpa using ih i' hi')
      · simp only [argminAbs, hc, if_false, List.getD_cons_succ]
        cases i with
        | zero =>
          simp only [List.getD_cons_zero]
          exact le_of_lt (lt_of_not_le hc)
        | succ i' =>
          have hi' : i' < (c :: cs).length := by simpa using hi
          simpa using ih i' hi'

theorem argminAbs_first (d : Int) (bins : List Nat) (j : Nat)
    (hj : j < argminAbs d bins) :
    distTo d (bins.getD (argminAbs d bins) 0) < distTo d (bins.getD j 0) := by
  induction bins generalizing j with
  | nil => simp [argminAbs] at hj
  | cons b rest ih =>
    cases rest with
    | nil => simp [argminAbs] at hj
    | cons c cs =>
      by_cases hc : distTo d b ≤ distTo d ((c :: cs).getD (argminAbs d (c :: cs)) 0)
      · rw [argminAbs] at hj
        simp only [hc, if_true] at hj
        omega
      · rw [argminAbs] at hj
        simp only [hc, if_false] at hj
        simp only [argminAbs, hc, if_false, List.getD_cons_succ]
        cases j with
        | zero =>
          simp only [List.getD_cons_zero]
          exact lt_of_not_le hc
        | succ j' => simpa using ih j' (by omega)

/-! ### Data model

`miditoolkit` objects reaching the tokenizer: notes, instrument tracks, tempo
changes and the MIDI document.  `fin` stands for the note's `end` attribute
(a reserved word).  Documents are taken as already preprocessed (pitches,
velocities and note times already mapped into the tokenizer's ranges by
`preprocess_midi`, which lives outside this file's sources).
-/

structure MNote where
  pitch : Nat
  velocity : Nat
  start : Nat
  fin : Nat
deriving DecidableEq, Repr

structure MTrack where
  program : Int
  is_drum : Bool
  notes : List MNote
deriving DecidableEq, Repr

structure MTempoChange where
  tempo : Nat
  time : Nat
deriving DecidableEq, Repr

structure MidiDoc where
  instruments : List MTrack
  tempo_changes : List MTempoChange
  ticks_per_beat : Nat
deriving DecidableEq, Repr

/-- Tokenizer configuration: the allowed-program list `self.programs`, the
duration table `self.durations` of `(beat, pos, res)` triples, the finest beat
resolution `max(self.beat_res.values())`, and the tempo-tracking flag
`additional_tokens["Tempo"]` (chords and rests are off, as forced for rests and
defaulted for chords). -/
structure Config where
  programs : List Int
  durations : List (Nat × Nat × Nat)
  maxBeatRes : Nat
  tempoOn : Bool
deriving DecidableEq, Repr

/-- Tick value of one duration triple: `(beat * res + pos) * ticks_per_beat // res`
(line computing `self._durations_ticks[ticks_per_beat]`). -/
def durTicks (tpb : Nat) (t : Nat × Nat × Nat) : Nat :=
  (t.1 * t.2.2 + t.2.1) * tpb / t.2.2

/-- The per-`ticks_per_beat` duration bin table `self._durations_ticks[tpb]`. -/
def durBins (cfg : Config) (tpb : Nat) : List Nat := cfg.durations.map (durTicks tpb)

/-- One entry of `track_to_tokens`'s output: the `Event` in slot 0 (type
Pitch/DrumPitch, pitch value, absolute time, track tag `desc`) together with
the trailing `Velocity_v` and `Duration_b.p.r` strings of the same row. -/
structure Ev where
  is_drum : Bool
  pitch : Nat
  time : Nat
  desc : Int
  vel : Nat
  dur : Nat × Nat × Nat
deriving DecidableEq, Repr

/-- Embedding of `MuMIDI.track_to_tokens` (chords disabled): one event per note,
duration quantized by the `argmin` search, `desc` the program for melodic tracks
and the fixed `-1` tag for drums. -/
def track_to_tokens (cfg : Config) (tpb : Nat) (track : MTrack) : List Ev :=
  track.notes.map fun n =>
    let d : Int := (n.fin : Int) - (n.start : Int)
    let idx := argminAbs d (durBins cfg tpb)
    let triple := cfg.durations.getD idx (0, 0, 0)
    if track.is_drum then
      ⟨true, n.pitch, n.start, -1, n.velocity, triple⟩
    else
      ⟨false, n.pitch, n.start, track.program, n.velocity, triple⟩

/-- Sort key of `note_tokens.sort(key=lambda x: (x[0].time, x[0].desc))`. -/
def evLe (a b : Ev) : Prop :=
  a.time < b.time ∨ (a.time = b.time ∧ a.desc ≤ b.desc)

instance : DecidableRel evLe := fun a b => by
  unfold evLe; infer_instance

/-- All events of the document's allowed tracks, in track order (the loop
`for track in midi.instruments: if track.program in self.programs`). -/
def docEvents (cfg : Config) (D : MidiDoc) : List Ev :=
  ((D.instruments.filter fun t => t.program ∈ cfg.programs).map
    (track_to_tokens cfg D.ticks_per_beat)).flatten

/-- The globally sorted event list.  Python's `list.sort` is a stable sort by
`(time, desc)`; any stable sort computes the same list, so the embedding uses
insertion sort. -/
def sortedEvents (cfg : Config) (D : MidiDoc) : List Ev :=
  List.insertionSort evLe (docEvents cfg D)

/-! ### Token rows

A row of the output sequence `[Type_Value, BarPosEnc_n, PositionPosEnc_(n|None),
(Tempo_t), (Velocity_v, Duration_b.p.r)]`, structured: slot 0 becomes `tok`,
slot 1 `barPE`, slot 2 `posPE` (`none` for `"PositionPosEnc_None"`), the
optional tempo slot `tempo`, and the two trailing slots `vel` and `dur`
(`none` when absent, i.e. on structural rows).  `Tok.pad` stands for a
special `PAD`/`MASK` token in slot 0. -/

inductive Tok where
  | bar : Tok
  | position : Int → Tok
  | program : Int → Tok
  | pitch : Nat → Tok
  | drumPitch : Nat → Tok
  | pad : Tok
deriving DecidableEq, Repr

structure Row where
  tok : Tok
  barPE : Int
  posPE : Option Int
  tempo : Option Nat
  vel : Option Nat
  dur : Option (Nat × Nat × Nat)
deriving DecidableEq, Repr

/-- Encoder loop state: `current_tick`, `current_bar`, `current_pos`,
`current_track` (all starting at `-1`/`-2` sentinels), plus the running tempo
value and the not-yet-consumed tail of the tempo-change list (the scan index
`current_tempo_idx` is represented by that tail). -/
structure EncSt where
  tick : Int
  bar : Int
  pos : Int
  track : Int
  tempoCur : Nat
  tempoRest : List MTempoChange
deriving DecidableEq, Repr

/-- Forward scan of the tempo-change list: advance while the next change's
time is `≤ t`, updating the running tempo; stop at the first later change. -/
def advTempo (t : Nat) : Nat → List MTempoChange → Nat × List MTempoChange
  | cur, [] => (cur, [])
  | cur, c :: rest => if c.time ≤ t then advTempo t c.tempo rest else (cur, c :: rest)

/-- The tempo update performed at the head of the encoder loop body (only when
tempo tracking is enabled). -/
def stepTempo (cfg : Config) (st : EncSt) (t : Nat) : Nat × List MTempoChange :=
  if cfg.tempoOn then advTempo t st.tempoCur st.tempoRest else (st.tempoCur, st.tempoRest)

/-- Optional tempo slot appended to every row when tempo tracking is on. -/
def tempoSlot (cfg : Config) (cur : Nat) : Option Nat :=
  if cfg.tempoOn then some cur else none

/-- A `["Bar_None", "BarPosEnc_b", "PositionPosEnc_None", (tempo)]` row. -/
def barRow (cfg : Config) (cur : Nat) (b : Int) : Row :=
  ⟨.bar, b, none, tempoSlot cfg cur, none, none⟩

/-- A `["Position_p", "BarPosEnc_b", "PositionPosEnc_p", (tempo)]` row. -/
def posRow (cfg : Config) (cur : Nat) (b p : Int) : Row :=
  ⟨.position p, b, some p, tempoSlot cfg cur, none, none⟩

/-- A `["Program_t", "BarPosEnc_b", "PositionPosEnc_p", (tempo)]` row. -/
def progRow (cfg : Config) (cur : Nat) (b p t : Int) : Row :=
  ⟨.program t, b, some p, tempoSlot cfg cur, none, none⟩

/-- A note row: the event's `Pitch`/`DrumPitch` token with the positional slots
inserted after it and the trailing velocity and duration slots kept. -/
def noteRow (cfg : Config) (cur : Nat) (b p : Int) (e : Ev) : Row :=
  ⟨if e.is_drum then .drumPitch e.pitch else .pitch e.pitch,
   b, some p, tempoSlot cfg cur, some e.vel, some e.dur⟩

/-- One iteration of the encoder loop over a sorted event: tempo update, the
tick-change block (bar catch-up rows and the position row), the track-change
program row, and the note row itself.  Returns the rows appended by this
iteration together with the updated state.  The position index embeds
`int((time % ticks_per_bar) / ticks_per_sample)` as exact integer division,
which agrees with the Python float computation whenever
`max(beat_res.values())` divides `ticks_per_beat`. -/
def stepRows (cfg : Config) (tpb : Nat) (st : EncSt) (e : Ev) : List Row × EncSt :=
  let tcur := (stepTempo cfg st e.time).1
  let st0 : EncSt := { st with tempoCur := tcur, tempoRest := (stepTempo cfg st e.time).2 }
  let tpBar : Nat := tpb * 4
  let tps : Nat := tpb / cfg.maxBeatRes
  if (e.time : Int) ≠ st0.tick then
    let posIdx : Int := ((e.time % tpBar) / tps : Nat)
    let newBar : Int := (e.time / tpBar : Nat)
    let nbNewBars : Nat := (newBar - st0.bar).toNat
    let bars : List Row :=
      if st0.bar < newBar then
        (List.range nbNewBars).map fun i : Nat => barRow cfg tcur (st0.bar + (i : Int) + 1)
      else []
    let bar' : Int := if st0.bar < newBar then newBar else st0.bar
    let st1 : EncSt := { st0 with tick := e.time, bar := bar', pos := posIdx, track := -2 }
    if e.desc ≠ st1.track then
      (bars ++ [posRow cfg tcur bar' posIdx] ++ [progRow cfg tcur bar' posIdx e.desc] ++
        [noteRow cfg tcur bar' posIdx e],
       { st1 with track := e.desc })
    else
      (bars ++ [posRow cfg tcur bar' posIdx] ++ [noteRow cfg tcur bar' posIdx e], st1)
  else
    if e.desc ≠ st0.track then
      ([progRow cfg tcur st0.bar st0.pos e.desc] ++ [noteRow cfg tcur st0.bar st0.pos e],
       { st0 with track := e.desc })
    else
      ([noteRow cfg tcur st0.bar st0.pos e], st0)

/-- The encoder loop over the remaining events, emitting rows in order. -/
def encodeFrom (cfg : Config) (tpb : Nat) : EncSt → List Ev → List Row
  | _, [] => []
  | st, e :: rest =>
    (stepRows cfg tpb st e).1 ++ encodeFrom cfg tpb (stepRows cfg tpb st e).2 rest

/-- The document's `max_tick`: the largest tick of any event, dominated by note
ends. -/
def docMaxTick (D : MidiDoc) : Nat :=
  ((D.instruments.map fun t => t.notes.map (·.fin)).flatten).foldr max 0

/-- The bar count `ceil(midi.max_tick / (midi.ticks_per_beat * 4))` used to grow
the bar positional-encoding field. -/
def nbBars (D : MidiDoc) : Nat :=
  (docMaxTick D + D.ticks_per_beat * 4 - 1) / (D.ticks_per_beat * 4)

/-- The capacity update `if self.max_bar_embedding < nb_bars: ... = nb_bars`. -/
def growCap (cap : Nat) (D : MidiDoc) : Nat :=
  if cap < nbBars D then nbBars D else cap

/-- Number of labels `add_to_vocab` appends to vocabulary field 1 during one
encode call (one label per index in `range(self.max_bar_embedding, nb_bars)`). -/
def vocabGrowth (cap : Nat) (D : MidiDoc) : Nat :=
  if cap < nbBars D then nbBars D - cap else 0

/-- Embedding of `MuMIDI._midi_to_tokens`, threading the mutable
`max_bar_embedding` attribute explicitly: the call grows the capacity, then
reads `tempo_changes[0]` — an `IndexError` when the list is empty — and
otherwise runs the encoder loop over the sorted events. -/
def midi_to_tokens (cfg : Config) (cap : Nat) (D : MidiDoc) :
    Nat × Except String (List Row) :=
  (growCap cap D,
    match D.tempo_changes with
    | [] => .error "IndexError"
    | t0 :: rest =>
      .ok (encodeFrom cfg D.ticks_per_beat ⟨-1, -1, -1, -2, t0.tempo, rest⟩
        (sortedEvents cfg D)))

/-- Capacity of the bar positional-encoding field after a sequence of encode
calls on one tokenizer instance. -/
def capAfter (cfg : Config) (cap0 : Nat) (docs : List MidiDoc) : Nat :=
  docs.foldl (fun c D => (midi_to_tokens cfg c D).1) cap0

/-- Size of vocabulary field 1 after a sequence of encode calls, starting from
`size0` labels (`_create_base_vocabulary` creates `max_bar_embedding` of them). -/
def vocab1After (cfg : Config) (size0 cap0 : Nat) (docs : List MidiDoc) : Nat :=
  (docs.foldl (fun p D => (p.1 + vocabGrowth p.2 D, (midi_to_tokens cfg p.2 D).1))
    (size0, cap0)).1

/-! ### Decoder (`tokens_to_midi`) -/

/-- A reconstructed `Note(velocity, pitch, start, end)` appended by the decoder. -/
structure QNote where
  velocity : Nat
  pitch : Nat
  start : Int
  fin : Int
deriving DecidableEq, Repr

/-- Decoder state: `current_tick`, `current_bar`, `current_track`, and the
`tracks` dictionary in insertion order.  Python keys the dictionary by the
`tok_val` string of `Program` rows; distinct integers give distinct strings, so
`Int` keys are faithful (the initial `current_track = 0` can never match a key
because `tracks` is empty until the first `Program` row). -/
structure DecSt where
  tick : Int
  bar : Int
  track : Int
  tracks : List (Int × List QNote)
deriving DecidableEq, Repr

/-- Lookup of a tag in the decoder's `tracks` dictionary. -/
def lookupTag (m : List (Int × List QNote)) (t : Int) : Option (List QNote) :=
  (m.find? fun p => p.1 = t).map (·.2)

/-- The `try: tracks[v] except KeyError: tracks[v] = []` on a `Program` row. -/
def ensureTag (m : List (Int × List QNote)) (t : Int) : List (Int × List QNote) :=
  if (lookupTag m t).isSome then m else m ++ [(t, [])]

/-- `tracks[t].append(n)` assuming the key is present. -/
def appendNote (m : List (Int × List QNote)) (t : Int) (n : QNote) :
    List (Int × List QNote) :=
  m.map fun p => if p.1 = t then (p.1, p.2 ++ [n]) else p

/-- Modelled from the spec: `_token_duration_to_ticks` (defined in the
tokenizer base class, outside this file's sources) converts a duration label
`b.p.r` back to a tick length; it is the inverse direction of the encoder's
bin formula, i.e. `(b * r + p) * time_division // r`, which is exactly
`durTicks`. -/
def tokenDurationToTicks (td : Nat) (t : Nat × Nat × Nat) : Nat := durTicks td t

/-- One decoder loop iteration over a row.  `Bar` advances the bar and derives
the tick; `Position` tolerates a missing preceding `Bar` row by forcing bar 0;
`Program` switches the current track, creating its (empty) note list on first
sight; `Pitch`/`DrumPitch` rows with both trailing slots present append a note
to the current track's list — a `KeyError` when that list was never created.
Rows with a `None` trailing slot, and any other slot-0 token, are skipped. -/
def decStep (cfg : Config) (td : Nat) (st : DecSt) (r : Row) : Except String DecSt :=
  match r.tok with
  | .bar => .ok { st with bar := st.bar + 1, tick := (st.bar + 1) * (td * 4) }
  | .position p =>
    let b : Int := if st.bar = -1 then 0 else st.bar
    .ok { st with bar := b, tick := b * (td * 4) + p * (td / cfg.maxBeatRes : Nat) }
  | .program v => .ok { st with track := v, tracks := ensureTag st.tracks v }
  | .pitch p =>
    match r.vel, r.dur with
    | some v, some t =>
      match lookupTag st.tracks st.track with
      | none => .error "KeyError"
      | some _ =>
        let n : QNote := ⟨v, p, st.tick, st.tick + (tokenDurationToTicks td t : Int)⟩
        .ok { st with tracks := appendNote st.tracks st.track n }
    | _, _ => .ok st
  | .drumPitch p =>
    match r.vel, r.dur with
    | some v, some t =>
      match lookupTag st.tracks st.track with
      | none => .error "KeyError"
      | some _ =>
        let n : QNote := ⟨v, p, st.tick, st.tick + (tokenDurationToTicks td t : Int)⟩
        .ok { st with tracks := appendNote st.tracks st.track n }
    | _, _ => .ok st
  | .pad => .ok st

/-- The decoder loop over all rows. -/
def decodeRows (cfg : Config) (td : Nat) : DecSt → List Row → Except String DecSt
  | st, [] => .ok st
  | st, r :: rest =>
    match decStep cfg td st r with
    | .error e => .error e
    | .ok st' => decodeRows cfg td st' rest

/-- The final loop appending one `Instrument` per dictionary entry: tag `-1`
becomes the drum track (program 0, `is_drum` set), any other tag a melodic
track with that program. -/
def finalizeTracks (m : List (Int × List QNote)) : List (Int × Bool × List QNote) :=
  m.map fun p => if p.1 = -1 then (0, true, p.2) else (p.1, false, p.2)

/-- Embedding of `MuMIDI.tokens_to_midi`: the time-division precondition
(`assert time_division % max(beat_res.values()) == 0`), then the row loop from
the fresh state, then track finalization. -/
def tokens_to_midi (cfg : Config) (td : Nat) (rows : List Row) :
    Except String (List (Int × Bool × List QNote)) :=
  if td % cfg.maxBeatRes ≠ 0 then .error "AssertionError"
  else
    match decodeRows cfg td ⟨0, -1, 0, []⟩ rows with
    | .error e => .error e
    | .ok st => .ok (finalizeTracks st.tracks)

/-! ### Validator (`tokens_errors`) -/

/-- Whether the second token's type may follow the first according to
`_create_token_types_graph` (chords disabled; `pad` has no successors,
modelling a special token in slot 0). -/
def allowedAfter : Tok → Tok → Bool
  | .bar, .bar => true
  | .bar, .position _ => true
  | .position _, .program _ => true
  | .program _, .pitch _ => true
  | .program _, .drumPitch _ => true
  | .pitch _, .pitch _ => true
  | .pitch _, .program _ => true
  | .pitch _, .bar => true
  | .pitch _, .position _ => true
  | .drumPitch _, .drumPitch _ => true
  | .drumPitch _, .program _ => true
  | .drumPitch _, .bar => true
  | .drumPitch _, .position _ => true
  | _, _ => false

/-- Validator state: error count, previous row's slot-0 token, `current_bar`,
`current_pos` and the `current_pitches` list. -/
structure ValSt where
  err : Nat
  prev : Tok
  bar : Int
  pos : Int
  pitches : List Nat
deriving DecidableEq, Repr

/-- One `tokens_errors` loop iteration: special rows count one error and are
skipped; otherwise the type-graph check, the per-type semantic checks (`Bar`
reset, duplicate pitch, non-advancing or inconsistent position, `Program`
reset) and, inside the good-type branch, the temporal-regression check on the
positional-encoding slots. -/
def valStep (st : ValSt) (r : Row) : ValSt :=
  let barValue : Int := r.barPE
  let posValue : Int := r.posPE.getD (-1)
  if r.tok = .pad then { st with err := st.err + 1 }
  else if allowedAfter st.prev r.tok then
    let st1 : ValSt :=
      match r.tok with
      | .bar => { st with bar := st.bar + 1, pos := -1, pitches := [] }
      | .pitch p =>
        if p ∈ st.pitches then { st with err := st.err + 1 }
        else { st with pitches := st.pitches ++ [p] }
      | .position v =>
        if v ≤ st.pos ∨ v ≠ posValue then { st with err := st.err + 1 }
        else { st with pos := v, pitches := [] }
      | .program _ => { st with pitches := [] }
      | _ => st
    let st2 : ValSt :=
      if posValue < st1.pos ∨ barValue < st1.bar then { st1 with err := st1.err + 1 }
      else st1
    { st2 with prev := r.tok }
  else { st with err := st.err + 1, prev := r.tok }

/-- Embedding of `MuMIDI.tokens_errors`: state initialized from the first row's
slots, the loop over the remaining rows, and the ratio `err / len(tokens)`
(`none` for the empty sequence, where Python's first-row access raises). -/
def tokens_errors (rows : List Row) : Option ℚ :=
  match rows with
  | [] => none
  | r0 :: rest =>
    let st0 : ValSt := ⟨0, r0.tok, r0.barPE, r0.posPE.getD (-1), []⟩
    some (((rest.foldl valStep st0).err : ℚ) / (rows.length : ℚ))

/-! ### Claim C5: the quantizer is a total nearest-bin search with
first-minimal tie-break -/

theorem getD_mem_of_lt {l : List Nat} {i : Nat} (h : i < l.length) : l.getD i 0 ∈ l := by
  rw [List.getD_eq_getElem l 0 h]
  exact List.getElem_mem h

/-- C5: for every raw duration `d : Int` (also out-of-range or negative) and
every non-empty bin table, `nearestDurBin` returns a member of the table whose
distance `|bin - d|` is minimal, and every bin strictly before the selected
index has strictly larger distance (first-minimal tie-break); the function is
total, so it never fails. -/
theorem quantizer_nearest_first_tie (d : Int) (bins : List Nat) (h : bins ≠ []) :
    nearestDurBin bins d ∈ bins ∧
    (∀ i, i < bins.length → distTo d (nearestDurBin bins d) ≤ distTo d (bins.getD i 0)) ∧
    (∀ j, j < argminAbs d bins → distTo d (nearestDurBin bins d) < distTo d (bins.getD j 0)) := by
  refine ⟨getD_mem_of_lt (argminAbs_lt_length d bins h), ?_, ?_⟩
  · intro i hi
    exact argminAbs_min d bins i hi
  · intro j hj
    exact argminAbs_first d bins j hj

theorem quantizer_nearest_first_tie_witness :
    ([60, 120, 240] : List Nat) ≠ [] ∧
    (nearestDurBin [60, 120, 240] 100 ∈ ([60, 120, 240] : List Nat) ∧
      (∀ i, i < ([60, 120, 240] : List Nat).length →
        distTo 100 (nearestDurBin [60, 120, 240] 100) ≤
          distTo 100 (([60, 120, 240] : List Nat).getD i 0)) ∧
      (∀ j, j < argminAbs 100 [60, 120, 240] →
        distTo 100 (nearestDurBin [60, 120, 240] 100) <
          distTo 100 (([60, 120, 240] : List Nat).getD j 0))) :=
  ⟨by decide, quantizer_nearest_first_tie 100 [60, 120, 240] (by decide)⟩

/-! ### Claim C6: quantization is idempotent on table entries -/

/-- C6: if `d` is itself an entry of the bin table, quantizing `d` returns `d`. -/
theorem quantizer_idempotent (d : Nat) (bins : List Nat) (h : d ∈ bins) :
    nearestDurBin bins (d : Int) = d := by
  obtain ⟨⟨k, hk⟩, hget⟩ := List.mem_iff_get.mp h
  have hk' : k < bins.length := hk
  have hmin := argminAbs_min (d : Int) bins k hk'
  have hgetD : bins.getD k 0 = d := by
    rw [List.getD_eq_getElem bins 0 hk']
    simpa using hget
  rw [hgetD] at hmin
  have : distTo (d : Int) d = 0 := by simp [distTo]
  rw [this, Nat.le_zero] at hmin
  have := Int.natAbs_eq_zero.mp hmin
  have : (nearestDurBin bins (d : Int) : Int) = (d : Int) := by
    unfold nearestDurBin at this ⊢
    omega
  exact_mod_cast this

theorem quantizer_idempotent_witness :
    (240 : Nat) ∈ ([60, 120, 240, 480] : List Nat) ∧
    nearestDurBin [60, 120, 240, 480] ((240 : Nat) : Int) = 240 :=
  ⟨by decide, quantizer_idempotent 240 [60, 120, 240, 480] (by decide)⟩

/-! ### Claim C9: encode reads `tempo_changes[0]` unconditionally -/

/-- C9: when the document's tempo-change list is empty, `_midi_to_tokens`
raises an `IndexError` (the unconditional `tempo_changes[0]` access) instead of
returning a token sequence — for every configuration, capacity and document,
tempo tracking enabled or not. -/
theorem encode_empty_tempo_raises (cfg : Config) (cap : Nat) (D : MidiDoc)
    (h : D.tempo_changes = []) :
    (midi_to_tokens cfg cap D).2 = .error "IndexError" := by
  unfold midi_to_tokens
  rw [h]

theorem encode_empty_tempo_raises_witness :
    (MidiDoc.mk [⟨0, false, [⟨60, 80, 0, 240⟩]⟩] [] 480).tempo_changes = [] ∧
    (midi_to_tokens ⟨[-1, 0], [(0, 4, 8)], 8, false⟩ 60
      (MidiDoc.mk [⟨0, false, [⟨60, 80, 0, 240⟩]⟩] [] 480)).2 = .error "IndexError" :=
  ⟨rfl, encode_empty_tempo_raises ⟨[-1, 0], [(0, 4, 8)], 8, false⟩ 60
    (MidiDoc.mk [⟨0, false, [⟨60, 80, 0, 240⟩]⟩] [] 480) rfl⟩

/-! ### Claim C3: the concrete single-note scenario

Configuration with `ticks_per_beat = 480` and finest resolution 8 samples per
beat, so `ticks_per_sample = 60`; tempo tracking disabled; duration table
containing a bin of 240 ticks (the triple `(0, 4, 8)`). -/

def scenarioCfg : Config :=
  ⟨[-1, 0], [(0, 1, 8), (0, 2, 8), (0, 4, 8), (1, 0, 8), (2, 0, 8)], 8, false⟩

def scenarioDoc : MidiDoc :=
  ⟨[⟨0, false, [⟨60, 80, 0, 240⟩]⟩], [⟨500000, 0⟩], 480⟩

/-- C3 counterexample: on the claim's input the encoder does NOT produce
exactly the three claimed rows `[Position_0, …], [Program_0, …], [Pitch_60, …]`
— a `Bar_None` row is emitted first. -/
theorem scenario_not_three_rows :
    (midi_to_tokens scenarioCfg 60 scenarioDoc).2 ≠
      .ok [⟨.position 0, 0, some 0, none, none, none⟩,
           ⟨.program 0, 0, some 0, none, none, none⟩,
           ⟨.pitch 60, 0, some 0, none, some 80, some (0, 4, 8)⟩] := by
  decide

/-- C3 (amended): the scenario produces exactly FOUR rows — a leading
`[Bar_None, BarPosEnc_0, PositionPosEnc_None]` row, then the three rows the
claim lists, in that order (`Duration_0.4.8` being the bin for 240 ticks at
`ticks_per_beat = 480`). -/
theorem scenario_four_rows :
    (midi_to_tokens scenarioCfg 60 scenarioDoc).2 =
      .ok [⟨.bar, 0, none, none, none, none⟩,
           ⟨.position 0, 0, some 0, none, none, none⟩,
           ⟨.program 0, 0, some 0, none, none, none⟩,
           ⟨.pitch 60, 0, some 0, none, some 80, some (0, 4, 8)⟩] := by
  decide

/-! ### Claim C2: totality and range of the validator's error ratio -/

theorem tokens_errors_cons (r0 : Row) (rest : List Row) :
    tokens_errors (r0 :: rest) =
      some (((rest.foldl valStep ⟨0, r0.tok, r0.barPE, r0.posPE.getD (-1), []⟩).err : ℚ) /
        (((r0 :: rest).length : Nat) : ℚ)) := rfl

theorem valStep_err_le (st : ValSt) (r : Row) : (valStep st r).err ≤ st.err + 2 := by
  unfold valStep
  cases r.tok <;> dsimp only <;> split_ifs <;> simp

theorem foldl_valStep_err_le (rest : List Row) : ∀ st : ValSt,
    (rest.foldl valStep st).err ≤ st.err + 2 * rest.length := by
  induction rest with
  | nil => intro st; simp
  | cons r rs ih =>
    intro st
    have h1 := valStep_err_le st r
    have h2 := ih (valStep st r)
    simp only [List.foldl_cons, List.length_cons]
    omega

/-- A row whose slot-0 token is `Pitch_60` with positional-encoding slots
`(b, p)` and no trailing slots: the shape used to overflow the claimed ratio
bound. -/
def dupRow (b p : Int) : Row := ⟨.pitch 60, b, some p, none, none, none⟩

/-- C2 counterexample: on a 4-row sequence whose first row pins
`current_bar = 5, current_pos = 5` and whose remaining rows are duplicate
`Pitch_60` rows with regressed positional slots, each checked row counts the
duplicate-pitch error AND the temporal-regression error, so the ratio is
`5/4 > 1` — the claimed interval `[0, 1]` is violated. -/
theorem validator_ratio_above_one :
    tokens_errors [dupRow 5 5, dupRow 0 0, dupRow 0 0, dupRow 0 0] = some (5 / 4 : ℚ) ∧
      ¬((5 / 4 : ℚ) ≤ 1) := by
  constructor
  · rw [tokens_errors_cons]
    have h : (List.foldl valStep
        ⟨0, (dupRow 5 5).tok, (dupRow 5 5).barPE, (dupRow 5 5).posPE.getD (-1), []⟩
        [dupRow 0 0, dupRow 0 0, dupRow 0 0]).err = 5 := by decide
    rw [h]
    norm_num
  · norm_num

/-- C2 (amended): for every non-empty row sequence the validator returns
normally with a ratio `errors / rows` satisfying `0 ≤ ratio ≤ 2·(rows−1)/rows`
(hence `< 2`); a checked row can contribute up to two errors, so the upper
bound is not 1. -/
theorem validator_total_ratio_bounds (rows : List Row) (h : rows ≠ []) :
    ∃ q : ℚ, tokens_errors rows = some q ∧ 0 ≤ q ∧
      q ≤ 2 * ((rows.length : ℚ) - 1) / (rows.length : ℚ) ∧ q < 2 := by
  cases rows with
  | nil => exact absurd rfl h
  | cons r0 rest =>
    rw [tokens_errors_cons]
    have he : (rest.foldl valStep ⟨0, r0.tok, r0.barPE, r0.posPE.getD (-1), []⟩).err ≤
        2 * rest.length := by
      have h0 := foldl_valStep_err_le rest ⟨0, r0.tok, r0.barPE, r0.posPE.getD (-1), []⟩
      have h1 : (ValSt.mk 0 r0.tok r0.barPE (r0.posPE.getD (-1)) []).err = 0 := rfl
      omega
    have hq : ((rest.foldl valStep ⟨0, r0.tok, r0.barPE, r0.posPE.getD (-1), []⟩).err : ℚ) ≤
        2 * (rest.length : ℚ) := by exact_mod_cast he
    have hlen : (((r0 :: rest).length : Nat) : ℚ) = (rest.length : ℚ) + 1 := by
      simp [List.length_cons]
    refine ⟨_, rfl, by positivity, ?_, ?_⟩
    · rw [hlen]
      have hsub : 2 * (((rest.length : ℚ) + 1) - 1) = 2 * (rest.length : ℚ) := by ring
      rw [hsub]
      gcongr
    · rw [hlen, div_lt_iff₀ (by positivity)]
      linarith

theorem validator_total_ratio_bounds_witness :
    ([dupRow 0 0] : List Row) ≠ [] ∧
    (∃ q : ℚ, tokens_errors [dupRow 0 0] = some q ∧ 0 ≤ q ∧
      q ≤ 2 * ((([dupRow 0 0] : List Row).length : ℚ) - 1) /
        (([dupRow 0 0] : List Row).length : ℚ) ∧ q < 2) :=
  ⟨by decide, validator_total_ratio_bounds [dupRow 0 0] (by decide)⟩

/-! ### Claim C10: a note row before any Program row raises `KeyError` -/

theorem decodeRows_cons (cfg : Config) (td : Nat) (st : DecSt) (r : Row) (l : List Row) :
    decodeRows cfg td st (r :: l) =
      match decStep cfg td st r with
      | .error e => .error e
      | .ok st' => decodeRows cfg td st' l := rfl

/-- A `Pitch`/`DrumPitch` row whose trailing velocity and duration slots are
both present (not `"None"`). -/
def noteful (r : Row) : Prop :=
  (∃ p, r.tok = .pitch p ∨ r.tok = .drumPitch p) ∧ r.vel.isSome ∧ r.dur.isSome

theorem lookupTag_nil (t : Int) : lookupTag [] t = none := rfl

theorem decodeRows_no_program_keyerror (cfg : Config) (td : Nat) :
    ∀ (pre : List Row) (st : DecSt), st.tracks = [] →
    (∀ q ∈ pre, ∀ v, q.tok ≠ .program v) →
    ∀ (r : Row), noteful r → ∀ (rest : List Row),
    decodeRows cfg td st (pre ++ r :: rest) = .error "KeyError" := by
  intro pre
  induction pre with
  | nil =>
    intro st hst _ r hr rest
    obtain ⟨⟨p, hp⟩, hv, hd⟩ := hr
    obtain ⟨v, hv⟩ := Option.isSome_iff_exists.mp hv
    obtain ⟨t, hd⟩ := Option.isSome_iff_exists.mp hd
    rcases hp with hp | hp <;>
      simp [decodeRows_cons, decStep, hp, hv, hd, hst, lookupTag_nil]
  | cons q pre' ih =>
    intro st hst hpre r hr rest
    have hq : ∀ v, q.tok ≠ .program v := hpre q (by simp)
    have hpre' : ∀ q' ∈ pre', ∀ v, q'.tok ≠ .program v := fun q' hq' => hpre q' (by simp [hq'])
    rw [List.cons_append, decodeRows_cons]
    cases htok : q.tok with
    | bar => simpa [decStep, htok] using ih _ (by simp [hst]) hpre' r hr rest
    | position p => simpa [decStep, htok] using ih _ (by simp [hst]) hpre' r hr rest
    | program v => exact absurd htok (hq v)
    | pad => simpa [decStep, htok] using ih _ (by simp [hst]) hpre' r hr rest
    | pitch p =>
      cases hv : q.vel with
      | none => simpa [decStep, htok, hv] using ih _ (by simp [hst]) hpre' r hr rest
      | some v =>
        cases hd : q.dur with
        | none => simpa [decStep, htok, hv, hd] using ih _ (by simp [hst]) hpre' r hr rest
        | some t => simp [decStep, htok, hv, hd, hst, lookupTag_nil]
    | drumPitch p =>
      cases hv : q.vel with
      | none => simpa [decStep, htok, hv] using ih _ (by simp [hst]) hpre' r hr rest
      | some v =>
        cases hd : q.dur with
        | none => simpa [decStep, htok, hv, hd] using ih _ (by simp [hst]) hpre' r hr rest
        | some t => simp [decStep, htok, hv, hd, hst, lookupTag_nil]

/-- C10: the decoder allocates note lists only on `Program` rows (the initial
default track tag 0 has none), so a token sequence with a `Pitch`/`DrumPitch`
row carrying real velocity and duration before any `Program` row makes
`tokens_to_midi` raise `KeyError` instead of appending to a default piano
track (given a time division passing the entry assertion). -/
theorem decode_note_before_program_keyerror (cfg : Config) (td : Nat)
    (pre : List Row) (r : Row) (rest : List Row)
    (htd : td % cfg.maxBeatRes = 0)
    (hpre : ∀ q ∈ pre, ∀ v, q.tok ≠ .program v)
    (hr : noteful r) :
    tokens_to_midi cfg td (pre ++ r :: rest) = .error "KeyError" := by
  unfold tokens_to_midi
  rw [if_neg (by simpa using htd)]
  rw [decodeRows_no_program_keyerror cfg td pre ⟨0, -1, 0, []⟩ rfl hpre r hr rest]

theorem decode_note_before_program_keyerror_witness :
    (480 % scenarioCfg.maxBeatRes = 0) ∧
    noteful ⟨.pitch 60, 0, some 0, none, some 80, some (0, 4, 8)⟩ ∧
    tokens_to_midi scenarioCfg 480
      ([⟨.bar, 0, none, none, none, none⟩,
        ⟨.position 0, 0, some 0, none, none, none⟩] ++
        ⟨.pitch 60, 0, some 0, none, some 80, some (0, 4, 8)⟩ :: []) = .error "KeyError" :=
  ⟨by decide, ⟨⟨60, Or.inl rfl⟩, rfl, rfl⟩,
    decode_note_before_program_keyerror scenarioCfg 480
      [⟨.bar, 0, none, none, none, none⟩, ⟨.position 0, 0, some 0, none, none, none⟩]
      ⟨.pitch 60, 0, some 0, none, some 80, some (0, 4, 8)⟩ []
      (by decide)
      (by intro q hq v
          simp only [List.mem_cons, List.not_mem_nil, or_false] at hq
          rcases hq with h | h <;> subst h <;> simp)
      ⟨⟨60, Or.inl rfl⟩, rfl, rfl⟩⟩

/-! ### Claim C4: the bar positional-encoding capacity only grows -/

theorem le_growCap (cap : Nat) (D : MidiDoc) : cap ≤ growCap cap D := by
  unfold growCap
  split <;> omega

theorem nbBars_le_growCap (cap : Nat) (D : MidiDoc) : nbBars D ≤ growCap cap D := by
  unfold growCap
  split <;> omega

theorem le_capAfter (cfg : Config) : ∀ (docs : List MidiDoc) (c : Nat),
    c ≤ capAfter cfg c docs := by
  intro docs
  induction docs with
  | nil => intro c; exact le_refl c
  | cons d ds ih =>
    intro c
    have h1 : c ≤ growCap c d := le_growCap c d
    have h2 := ih (growCap c d)
    unfold capAfter at h2 ⊢
    simp only [List.foldl_cons]
    exact le_trans h1 h2

theorem capAfter_append (cfg : Config) (c : Nat) (l1 l2 : List MidiDoc) :
    capAfter cfg c (l1 ++ l2) = capAfter cfg (capAfter cfg c l1) l2 := by
  unfold capAfter
  rw [List.foldl_append]

theorem foldr_max_le_of_mem {l : List Nat} {x : Nat} (h : x ∈ l) :
    x ≤ l.foldr max 0 := by
  induction l with
  | nil => simp at h
  | cons a l ih =>
    rcases List.mem_cons.mp h with h | h
    · subst h; simp [List.foldr_cons]
    · simp only [List.foldr_cons]
      exact le_trans (ih h) (le_max_right a _)

theorem fin_le_docMaxTick (D : MidiDoc) (t : MTrack) (ht : t ∈ D.instruments)
    (n : MNote) (hn : n ∈ t.notes) : n.fin ≤ docMaxTick D := by
  unfold docMaxTick
  apply foldr_max_le_of_mem
  rw [List.mem_flatten]
  exact ⟨t.notes.map (·.fin), by
    rw [List.mem_map]; exact ⟨t, ht, rfl⟩, by
    rw [List.mem_map]; exact ⟨n, hn, rfl⟩⟩

theorem barIdx_lt_nbBars (D : MidiDoc) (hD : 0 < D.ticks_per_beat)
    (t : MTrack) (ht : t ∈ D.instruments) (n : MNote) (hn : n ∈ t.notes)
    (hfin : n.start < n.fin) :
    n.start / (D.ticks_per_beat * 4) + 1 ≤ nbBars D := by
  have hb : 0 < D.ticks_per_beat * 4 := by omega
  have hM : n.fin ≤ docMaxTick D := fin_le_docMaxTick D t ht n hn
  have hM1 : 1 ≤ docMaxTick D := by omega
  unfold nbBars
  have hrw : docMaxTick D + D.ticks_per_beat * 4 - 1 =
      (docMaxTick D - 1) + D.ticks_per_beat * 4 := by omega
  rw [hrw, Nat.add_div_right _ hb]
  have : n.start ≤ docMaxTick D - 1 := by omega
  have := Nat.div_le_div_right (c := D.ticks_per_beat * 4) this
  omega

/-- C4: across any sequence of encode calls on one tokenizer instance, the bar
positional-encoding capacity after any call is at least its value after every
earlier call, the size of vocabulary field 1 tracks the capacity exactly
(growing by the appended `BarPosEnc` labels, never shrinking), and the capacity
exceeds every bar index of every note observed so far. -/
theorem bar_capacity_monotone (cfg : Config) (cap0 : Nat) (docs : List MidiDoc)
    (i j : Nat) (hij : i ≤ j)
    (hval : ∀ D ∈ docs, 0 < D.ticks_per_beat ∧
      ∀ t ∈ D.instruments, ∀ n ∈ t.notes, n.start < n.fin) :
    capAfter cfg cap0 (docs.take i) ≤ capAfter cfg cap0 (docs.take j) ∧
    vocab1After cfg cap0 cap0 (docs.take j) = capAfter cfg cap0 (docs.take j) ∧
    (∀ D ∈ docs.take j, ∀ t ∈ D.instruments, ∀ n ∈ t.notes,
      n.start / (D.ticks_per_beat * 4) + 1 ≤ capAfter cfg cap0 (docs.take j)) := by
  refine ⟨?_, ?_, ?_⟩
  · have hsplit : docs.take j = docs.take i ++ ((docs.drop i).take (j - i)) := by
      rw [← List.take_add]
      congr 1
      omega
    rw [hsplit, capAfter_append]
    exact le_capAfter cfg _ _
  · have : ∀ (l : List MidiDoc) (sz cap : Nat), sz = cap →
        vocab1After cfg sz cap l = capAfter cfg cap l := by
      intro l
      induction l with
      | nil => intro sz cap h; simpa [vocab1After, capAfter] using h
      | cons d ds ih =>
        intro sz cap h
        subst h
        unfold vocab1After capAfter
        simp only [List.foldl_cons]
        have hstep : sz + vocabGrowth sz d = growCap sz d := by
          unfold vocabGrowth growCap
          split <;> omega
        have hm : (midi_to_tokens cfg sz d).1 = growCap sz d := rfl
        rw [hstep, hm]
        exact ih (growCap sz d) (growCap sz d) rfl
    exact this (docs.take j) cap0 cap0 rfl
  · have hge : ∀ (l : List MidiDoc) (c : Nat) (D : MidiDoc), D ∈ l →
        nbBars D ≤ capAfter cfg c l := by
      intro l
      induction l with
      | nil => intro c D h; simp at h
      | cons d ds ih =>
        intro c D h
        rcases List.mem_cons.mp h with h | h
        · subst h
          have h1 : nbBars D ≤ growCap c D := nbBars_le_growCap c D
          have h2 := le_capAfter cfg ds (growCap c D)
          unfold capAfter at h2 ⊢
          simp only [List.foldl_cons]
          exact le_trans h1 h2
        · unfold capAfter
          simp only [List.foldl_cons]
          exact ih _ D h
    intro D hD t ht n hn
    have hDdocs : D ∈ docs := List.mem_of_mem_take hD
    obtain ⟨htpb, hfin⟩ := hval D hDdocs
    exact le_trans (barIdx_lt_nbBars D htpb t ht n hn (hfin t ht n hn))
      (hge (docs.take j) cap0 D hD)

theorem bar_capacity_monotone_witness :
    (1 ≤ 2) ∧
    (∀ D ∈ [scenarioDoc, scenarioDoc], 0 < D.ticks_per_beat ∧
      ∀ t ∈ D.instruments, ∀ n ∈ t.notes, n.start < n.fin) ∧
    (capAfter scenarioCfg 60 ([scenarioDoc, scenarioDoc].take 1) ≤
        capAfter scenarioCfg 60 ([scenarioDoc, scenarioDoc].take 2) ∧
      vocab1After scenarioCfg 60 60 ([scenarioDoc, scenarioDoc].take 2) =
        capAfter scenarioCfg 60 ([scenarioDoc, scenarioDoc].take 2) ∧
      (∀ D ∈ [scenarioDoc, scenarioDoc].take 2, ∀ t ∈ D.instruments, ∀ n ∈ t.notes,
        n.start / (D.ticks_per_beat * 4) + 1 ≤
          capAfter scenarioCfg 60 ([scenarioDoc, scenarioDoc].take 2))) :=
  ⟨by decide, by decide,
    bar_capacity_monotone scenarioCfg 60 [scenarioDoc, scenarioDoc] 1 2
      (by decide) (by decide)⟩

/-! ### Claim C8: bar catch-up rows on multi-bar gaps -/

/-- C8: when the encoder processes an event whose bar index exceeds
`current_bar` by `k ≥ 1` (a tick change with a possibly multi-bar gap), the
emitted rows are exactly `k` consecutive `Bar` rows — the `i`-th carrying the
bar positional-encoding value `current_bar + i` and the `None`
position-encoding slot — followed immediately by the `Position` row for the new
`(bar, position)`. -/
theorem encode_bar_catchup (cfg : Config) (tpb : Nat) (st : EncSt) (e : Ev) (k : Nat)
    (hk : 0 < k)
    (htick : (e.time : Int) ≠ st.tick)
    (hbar : ((e.time / (tpb * 4) : Nat) : Int) = st.bar + k) :
    ∃ tail, (stepRows cfg tpb st e).1 =
      ((List.range k).map fun i : Nat =>
        barRow cfg (stepTempo cfg st e.time).1 (st.bar + (i : Int) + 1)) ++
      posRow cfg (stepTempo cfg st e.time).1 (st.bar + k)
        (((e.time % (tpb * 4)) / (tpb / cfg.maxBeatRes) : Nat) : Int) :: tail := by
  unfold stepRows
  dsimp only
  rw [if_pos htick]
  have hlt : st.bar < ((e.time / (tpb * 4) : Nat) : Int) := by omega
  simp only [if_pos hlt]
  have htonat : (((e.time / (tpb * 4) : Nat) : Int) - st.bar).toNat = k := by omega
  rw [htonat, hbar]
  split
  · refine ⟨[progRow cfg (stepTempo cfg st e.time).1 (st.bar + k)
        (((e.time % (tpb * 4)) / (tpb / cfg.maxBeatRes) : Nat) : Int) e.desc,
      noteRow cfg (stepTempo cfg st e.time).1 (st.bar + k)
        (((e.time % (tpb * 4)) / (tpb / cfg.maxBeatRes) : Nat) : Int) e], ?_⟩
    simp [List.append_assoc]
  · refine ⟨[noteRow cfg (stepTempo cfg st e.time).1 (st.bar + k)
        (((e.time % (tpb * 4)) / (tpb / cfg.maxBeatRes) : Nat) : Int) e], ?_⟩
    simp [List.append_assoc]

theorem encode_bar_catchup_witness :
    (0 < 2) ∧ ((3840 : Nat) : Int) ≠ (0 : Int) ∧
    (((3840 / (480 * 4) : Nat) : Int) = (0 : Int) + (2 : Nat)) ∧
    (∃ tail, (stepRows scenarioCfg 480 ⟨0, 0, 0, 0, 120, []⟩
        ⟨false, 62, 3840, 0, 90, (0, 4, 8)⟩).1 =
      ((List.range 2).map fun i : Nat =>
        barRow scenarioCfg
          (stepTempo scenarioCfg ⟨0, 0, 0, 0, 120, []⟩ 3840).1 ((0 : Int) + (i : Int) + 1)) ++
      posRow scenarioCfg (stepTempo scenarioCfg ⟨0, 0, 0, 0, 120, []⟩ 3840).1
        ((0 : Int) + (2 : Nat))
        (((3840 % (480 * 4)) / (480 / scenarioCfg.maxBeatRes) : Nat) : Int) :: tail) :=
  ⟨by decide, by decide, by decide,
    encode_bar_catchup scenarioCfg 480 ⟨0, 0, 0, 0, 120, []⟩
      ⟨false, 62, 3840, 0, 90, (0, 4, 8)⟩ 2 (by decide) (by decide) (by decide)⟩

/-! ### Shape of one encoder iteration -/

theorem stepRows_same_tick_same_track (cfg : Config) (tpb : Nat) (st : EncSt) (e : Ev)
    (h1 : (e.time : Int) = st.tick) (h2 : e.desc = st.track) :
    stepRows cfg tpb st e =
      ([noteRow cfg (stepTempo cfg st e.time).1 st.bar st.pos e],
       ⟨st.tick, st.bar, st.pos, st.track,
        (stepTempo cfg st e.time).1, (stepTempo cfg st e.time).2⟩) := by
  unfold stepRows
  dsimp only
  rw [if_neg (not_not_intro h1), if_neg (not_not_intro h2)]

theorem stepRows_same_tick_new_track (cfg : Config) (tpb : Nat) (st : EncSt) (e : Ev)
    (h1 : (e.time : Int) = st.tick) (h2 : e.desc ≠ st.track) :
    stepRows cfg tpb st e =
      ([progRow cfg (stepTempo cfg st e.time).1 st.bar st.pos e.desc,
        noteRow cfg (stepTempo cfg st e.time).1 st.bar st.pos e],
       ⟨st.tick, st.bar, st.pos, e.desc,
        (stepTempo cfg st e.time).1, (stepTempo cfg st e.time).2⟩) := by
  unfold stepRows
  dsimp only
  rw [if_neg (not_not_intro h1), if_pos h2]
  rfl

theorem stepRows_new_tick (cfg : Config) (tpb : Nat) (st : EncSt) (e : Ev)
    (h1 : (e.time : Int) ≠ st.tick) (hdesc : e.desc ≠ -2) :
    stepRows cfg tpb st e =
      ((if st.bar < ((e.time / (tpb * 4) : Nat) : Int) then
          (List.range (((e.time / (tpb * 4) : Nat) : Int) - st.bar).toNat).map fun i : Nat =>
            barRow cfg (stepTempo cfg st e.time).1 (st.bar + (i : Int) + 1)
        else []) ++
        [posRow cfg (stepTempo cfg st e.time).1
          (if st.bar < ((e.time / (tpb * 4) : Nat) : Int) then ((e.time / (tpb * 4) : Nat) : Int)
            else st.bar)
          (((e.time % (tpb * 4)) / (tpb / cfg.maxBeatRes) : Nat) : Int),
         progRow cfg (stepTempo cfg st e.time).1
          (if st.bar < ((e.time / (tpb * 4) : Nat) : Int) then ((e.time / (tpb * 4) : Nat) : Int)
            else st.bar)
          (((e.time % (tpb * 4)) / (tpb / cfg.maxBeatRes) : Nat) : Int) e.desc,
         noteRow cfg (stepTempo cfg st e.time).1
          (if st.bar < ((e.time / (tpb * 4) : Nat) : Int) then ((e.time / (tpb * 4) : Nat) : Int)
            else st.bar)
          (((e.time % (tpb * 4)) / (tpb / cfg.maxBeatRes) : Nat) : Int) e],
       ⟨(e.time : Int),
        (if st.bar < ((e.time / (tpb * 4) : Nat) : Int) then ((e.time / (tpb * 4) : Nat) : Int)
          else st.bar),
        (((e.time % (tpb * 4)) / (tpb / cfg.maxBeatRes) : Nat) : Int), e.desc,
        (stepTempo cfg st e.time).1, (stepTempo cfg st e.time).2⟩) := by
  unfold stepRows
  dsimp only
  rw [if_pos h1, if_pos hdesc]
  simp [List.append_assoc]

/-! ### The decoder's tracks dictionary -/

/-- The quantized note the decoder rebuilds for event `e` when its block is
decoded at the right tick. -/
def qnoteOfEv (tpb : Nat) (e : Ev) : QNote :=
  ⟨e.vel, e.pitch, (e.time : Int), (e.time : Int) + (durTicks tpb e.dur : Int)⟩

/-- Appending a note under a tag: extend the tag's list when present, create a
new singleton entry otherwise (the net effect of a `Program` row followed by a
note row for that tag). -/
def addNote (m : List (Int × List QNote)) (t : Int) (n : QNote) :
    List (Int × List QNote) :=
  if (lookupTag m t).isSome then appendNote m t n else m ++ [(t, [n])]

/-- Distinct dictionary keys (Python dict keys are unique). -/
def keyNe (a b : Int × List QNote) : Prop := a.1 ≠ b.1

theorem lookupTag_cons (p : Int × List QNote) (m : List (Int × List QNote)) (t : Int) :
    lookupTag (p :: m) t = if p.1 = t then some p.2 else lookupTag m t := by
  unfold lookupTag
  by_cases h : p.1 = t <;> simp [List.find?_cons, h]

theorem appendNote_of_not_found (m : List (Int × List QNote)) (t : Int) (n : QNote)
    (h : lookupTag m t = none) : appendNote m t n = m := by
  induction m with
  | nil => rfl
  | cons p m' ih =>
    rw [lookupTag_cons] at h
    by_cases hp : p.1 = t
    · simp [hp] at h
    · simp only [hp, if_false] at h
      unfold appendNote
      simp only [List.map_cons, if_neg hp]
      have := ih h
      unfold appendNote at this
      rw [this]

theorem appendNote_ensureTag (m : List (Int × List QNote)) (t : Int) (n : QNote) :
    appendNote (ensureTag m t) t n = addNote m t n := by
  unfold ensureTag addNote
  by_cases h : (lookupTag m t).isSome
  · rw [if_pos h, if_pos h]
  · rw [if_neg h, if_neg h]
    have hnone : lookupTag m t = none := Option.not_isSome_iff_eq_none.mp h
    unfold appendNote
    rw [List.map_append]
    have h1 : (m.map fun p => if p.1 = t then (p.1, p.2 ++ [n]) else p) = m := by
      have := appendNote_of_not_found m t n hnone
      unfold appendNote at this
      exact this
    rw [h1]
    simp

theorem lookupTag_append_right (m : List (Int × List QNote)) (t : Int)
    (l : List QNote) (h : lookupTag m t = none) :
    lookupTag (m ++ [(t, l)]) t = some l := by
  induction m with
  | nil => simp [lookupTag, List.find?]
  | cons p m' ih =>
    rw [lookupTag_cons] at h
    rw [List.cons_append, lookupTag_cons]
    by_cases hp : p.1 = t
    · simp [hp] at h
    · simp only [hp, if_false] at h ⊢
      exact ih h

theorem lookupTag_ensureTag_isSome (m : List (Int × List QNote)) (t : Int) :
    (lookupTag (ensureTag m t) t).isSome := by
  unfold ensureTag
  by_cases h : (lookupTag m t).isSome
  · rw [if_pos h]; exact h
  · rw [if_neg h]
    have hnone : lookupTag m t = none := Option.not_isSome_iff_eq_none.mp h
    rw [lookupTag_append_right m t [] hnone]
    rfl

theorem lookupTag_isSome_iff (m : List (Int × List QNote)) (t : Int) :
    (lookupTag m t).isSome ↔ ∃ p ∈ m, p.1 = t := by
  induction m with
  | nil => simp [lookupTag]
  | cons p m' ih =>
    rw [lookupTag_cons]
    by_cases hp : p.1 = t <;> simp [hp, ih]

theorem lookupTag_appendNote_isSome (m : List (Int × List QNote)) (t s : Int) (n : QNote)
    (h : (lookupTag m s).isSome) : (lookupTag (appendNote m t n) s).isSome := by
  rw [lookupTag_isSome_iff] at h ⊢
  obtain ⟨p, hp, hps⟩ := h
  refine ⟨if p.1 = t then (p.1, p.2 ++ [n]) else p, ?_, ?_⟩
  · unfold appendNote
    exact List.mem_map_of_mem _ hp
  · by_cases hp1 : p.1 = t
    · rw [if_pos hp1]
      exact hp1 ▸ hps
    · rw [if_neg hp1]
      exact hps

theorem lookupTag_addNote_self_isSome (m : List (Int × List QNote)) (t : Int) (n : QNote) :
    (lookupTag (addNote m t n) t).isSome := by
  unfold addNote
  by_cases h : (lookupTag m t).isSome
  · rw [if_pos h]; exact lookupTag_appendNote_isSome m t t n h
  · rw [if_neg h]
    have hnone : lookupTag m t = none := Option.not_isSome_iff_eq_none.mp h
    rw [lookupTag_append_right m t [n] hnone]
    rfl

theorem keys_appendNote (m : List (Int × List QNote)) (t : Int) (n : QNote) :
    (appendNote m t n).map (·.1) = m.map (·.1) := by
  unfold appendNote
  rw [List.map_map]
  apply List.map_congr_left
  intro p _
  by_cases hp : p.1 = t <;> simp [hp]

theorem pairwise_keyNe_appendNote (m : List (Int × List QNote)) (t : Int) (n : QNote)
    (h : m.Pairwise keyNe) : (appendNote m t n).Pairwise keyNe := by
  unfold appendNote
  refine List.Pairwise.map _ ?_ h
  intro a b hab
  unfold keyNe at hab ⊢
  by_cases ha : a.1 = t <;> by_cases hb : b.1 = t <;> simpa [ha, hb] using hab

theorem lookupTag_eq_none_iff (m : List (Int × List QNote)) (t : Int) :
    lookupTag m t = none ↔ ∀ p ∈ m, p.1 ≠ t := by
  induction m with
  | nil => simp [lookupTag]
  | cons p m' ih =>
    rw [lookupTag_cons]
    by_cases hp : p.1 = t <;> simp [hp, ih]

theorem pairwise_keyNe_addNote (m : List (Int × List QNote)) (t : Int) (n : QNote)
    (h : m.Pairwise keyNe) : (addNote m t n).Pairwise keyNe := by
  unfold addNote
  by_cases hs : (lookupTag m t).isSome
  · rw [if_pos hs]; exact pairwise_keyNe_appendNote m t n h
  · rw [if_neg hs]
    have hnone := Option.not_isSome_iff_eq_none.mp hs
    rw [List.pairwise_append]
    refine ⟨h, by simp [keyNe], ?_⟩
    intro a ha b hb
    simp only [List.mem_singleton] at hb
    subst hb
    exact (lookupTag_eq_none_iff m t).mp hnone a ha

/-! ### Decoding the rows of one encoder block -/

theorem decStep_barRow (cfg : Config) (td : Nat) (st : DecSt) (cur : Nat) (b : Int) :
    decStep cfg td st (barRow cfg cur b) =
      .ok ⟨(st.bar + 1) * ((td : Int) * 4), st.bar + 1, st.track, st.tracks⟩ := rfl

theorem decStep_posRow (cfg : Config) (td : Nat) (st : DecSt) (cur : Nat) (b p : Int) :
    decStep cfg td st (posRow cfg cur b p) =
      .ok ⟨(if st.bar = -1 then 0 else st.bar) * ((td : Int) * 4) +
            p * ((td / cfg.maxBeatRes : Nat) : Int),
          (if st.bar = -1 then 0 else st.bar), st.track, st.tracks⟩ := rfl

theorem decStep_progRow (cfg : Config) (td : Nat) (st : DecSt) (cur : Nat) (b p v : Int) :
    decStep cfg td st (progRow cfg cur b p v) =
      .ok ⟨st.tick, st.bar, v, ensureTag st.tracks v⟩ := rfl

theorem decStep_noteRow (cfg : Config) (td : Nat) (st : DecSt) (cur : Nat) (b p : Int)
    (e : Ev) :
    decStep cfg td st (noteRow cfg cur b p e) =
      match lookupTag st.tracks st.track with
      | none => .error "KeyError"
      | some _ =>
        .ok ⟨st.tick, st.bar, st.track, appendNote st.tracks st.track
          ⟨e.vel, e.pitch, st.tick, st.tick + (tokenDurationToTicks td e.dur : Int)⟩⟩ := by
  cases hd : e.is_drum <;> simp [decStep, noteRow, hd]

theorem decodeRows_append (cfg : Config) (td : Nat) (l1 : List Row) :
    ∀ (st : DecSt) (l2 : List Row),
    decodeRows cfg td st (l1 ++ l2) =
      match decodeRows cfg td st l1 with
      | .error e => .error e
      | .ok st1 => decodeRows cfg td st1 l2 := by
  induction l1 with
  | nil => intro st l2; rfl
  | cons r l1' ih =>
    intro st l2
    rw [List.cons_append, decodeRows_cons, decodeRows_cons]
    cases decStep cfg td st r with
    | error e => rfl
    | ok st' => exact ih st' l2

theorem decode_barRows (cfg : Config) (td : Nat) (cur : Nat) (k : Nat) :
    ∀ (sd : DecSt) (c : Int), sd.bar = c →
    decodeRows cfg td sd ((List.range (k + 1)).map fun i : Nat => barRow cfg cur (c + (i : Int) + 1)) =
      .ok ⟨(c + (k + 1 : Nat)) * ((td : Int) * 4), c + (k + 1 : Nat), sd.track, sd.tracks⟩ := by
  induction k with
  | zero =>
    intro sd c hc
    obtain ⟨tk, br, trk, trs⟩ := sd
    simp only at hc
    subst hc
    rw [show List.range 1 = [0] from rfl]
    simp only [List.map_cons, List.map_nil]
    rw [decodeRows_cons, decStep_barRow]
    simp only [decodeRows]
    norm_num
  | succ k' ih =>
    intro sd c hc
    rw [List.range_succ_eq_map]
    simp only [List.map_cons, List.map_map]
    rw [decodeRows_cons, decStep_barRow]
    have hfun : ((fun i : Nat => barRow cfg cur (c + (i : Int) + 1)) ∘ Nat.succ) =
        fun i : Nat => barRow cfg cur ((c + 1) + (i : Int) + 1) := by
      funext i
      simp only [Function.comp]
      congr 1
      push_cast
      ring
    rw [hfun]
    have hbar1 : ((⟨(sd.bar + 1) * ((td : Int) * 4), sd.bar + 1, sd.track, sd.tracks⟩ :
        DecSt)).bar = c + 1 := by
      simp [hc]
    dsimp only
    rw [ih _ (c + 1) hbar1]
    simp only [Except.ok.injEq, DecSt.mk.injEq, and_true, true_and]
    constructor <;> push_cast <;> ring

/-! ### Time-grid arithmetic -/

theorem sample_dvd_tpb (cfg : Config) (tpb : Nat) (hres : cfg.maxBeatRes ∣ tpb) :
    (tpb / cfg.maxBeatRes) ∣ tpb :=
  ⟨cfg.maxBeatRes, (Nat.div_mul_cancel hres).symm⟩

theorem tick_align (cfg : Config) (tpb : Nat) (hres : cfg.maxBeatRes ∣ tpb)
    (t : Nat) (hal : (tpb / cfg.maxBeatRes) ∣ t) :
    ((t / (tpb * 4) : Nat) : Int) * ((tpb : Int) * 4) +
      (((t % (tpb * 4)) / (tpb / cfg.maxBeatRes) : Nat) : Int) *
        ((tpb / cfg.maxBeatRes : Nat) : Int) = (t : Int) := by
  have hsb : (tpb / cfg.maxBeatRes) ∣ (tpb * 4) :=
    Dvd.dvd.mul_right (sample_dvd_tpb cfg tpb hres) 4
  have hsm : (tpb / cfg.maxBeatRes) ∣ (t % (tpb * 4)) := (Nat.dvd_mod_iff hsb).mpr hal
  have hnat : (t / (tpb * 4)) * (tpb * 4) +
      ((t % (tpb * 4)) / (tpb / cfg.maxBeatRes)) * (tpb / cfg.maxBeatRes) = t := by
    rw [Nat.div_mul_cancel hsm]
    calc (t / (tpb * 4)) * (tpb * 4) + t % (tpb * 4)
        = (tpb * 4) * (t / (tpb * 4)) + t % (tpb * 4) := by rw [Nat.mul_comm]
      _ = t := Nat.div_add_mod t (tpb * 4)
  exact_mod_cast hnat

theorem decode_prognote (cfg : Config) (td : Nat) (sd : DecSt) (e : Ev) (cur : Nat)
    (b p : Int) :
    decodeRows cfg td sd [progRow cfg cur b p e.desc, noteRow cfg cur b p e] =
      .ok ⟨sd.tick, sd.bar, e.desc,
        addNote sd.tracks e.desc
          ⟨e.vel, e.pitch, sd.tick, sd.tick + (tokenDurationToTicks td e.dur : Int)⟩⟩ := by
  rw [decodeRows_cons, decStep_progRow]
  dsimp only
  rw [decodeRows_cons, decStep_noteRow]
  obtain ⟨l, hl⟩ := Option.isSome_iff_exists.mp (lookupTag_ensureTag_isSome sd.tracks e.desc)
  dsimp only
  rw [hl]
  dsimp only [decodeRows]
  rw [appendNote_ensureTag]

theorem decode_note_only (cfg : Config) (td : Nat) (sd : DecSt) (e : Ev) (cur : Nat)
    (b p : Int) (hsome : (lookupTag sd.tracks sd.track).isSome) :
    decodeRows cfg td sd [noteRow cfg cur b p e] =
      .ok ⟨sd.tick, sd.bar, sd.track,
        addNote sd.tracks sd.track
          ⟨e.vel, e.pitch, sd.tick, sd.tick + (tokenDurationToTicks td e.dur : Int)⟩⟩ := by
  rw [decodeRows_cons, decStep_noteRow]
  obtain ⟨l, hl⟩ := Option.isSome_iff_exists.mp hsome
  rw [hl]
  dsimp only [decodeRows]
  unfold addNote
  rw [if_pos hsome]

theorem decode_posprognote (cfg : Config) (td : Nat) (sd : DecSt) (e : Ev) (cur : Nat)
    (b p : Int) (hbne : ¬(sd.bar = -1)) :
    decodeRows cfg td sd
      [posRow cfg cur b p, progRow cfg cur b p e.desc, noteRow cfg cur b p e] =
      .ok ⟨sd.bar * ((td : Int) * 4) + p * ((td / cfg.maxBeatRes : Nat) : Int), sd.bar, e.desc,
        addNote sd.tracks e.desc
          ⟨e.vel, e.pitch,
           sd.bar * ((td : Int) * 4) + p * ((td / cfg.maxBeatRes : Nat) : Int),
           sd.bar * ((td : Int) * 4) + p * ((td / cfg.maxBeatRes : Nat) : Int) +
             (tokenDurationToTicks td e.dur : Int)⟩⟩ := by
  rw [decodeRows_cons, decStep_posRow, if_neg hbne]
  dsimp only
  exact decode_prognote cfg td
    ⟨sd.bar * ((td : Int) * 4) + p * ((td / cfg.maxBeatRes : Nat) : Int),
     sd.bar, sd.track, sd.tracks⟩ e cur b p

/-! ### The encode/decode simulation invariant -/

/-- Relation between the encoder state and the decoder state at block
boundaries: equal bars, unique dictionary keys, and either both still in their
initial sentinel states or synchronized on a grid-aligned tick with the current
track's note list allocated. -/
def RTInv (cfg : Config) (tpb : Nat) (se : EncSt) (sd : DecSt) : Prop :=
  sd.bar = se.bar ∧ sd.tracks.Pairwise keyNe ∧
  ((se.tick = -1 ∧ se.bar = -1 ∧ se.track = -2 ∧ sd.tracks = []) ∨
    (∃ t : Nat, se.tick = (t : Int) ∧ (tpb / cfg.maxBeatRes) ∣ t ∧
      se.bar = ((t / (tpb * 4) : Nat) : Int) ∧ sd.tick = (t : Int) ∧
      sd.track = se.track ∧ (lookupTag sd.tracks se.track).isSome))

theorem rt_step (cfg : Config) (tpb : Nat) (hres : cfg.maxBeatRes ∣ tpb)
    (se : EncSt) (sd : DecSt) (e : Ev)
    (hinv : RTInv cfg tpb se sd)
    (hdesc : -1 ≤ e.desc)
    (hal : (tpb / cfg.maxBeatRes) ∣ e.time)
    (htime : se.tick ≤ (e.time : Int)) :
    decodeRows cfg tpb sd ((stepRows cfg tpb se e).1) =
      .ok ⟨(e.time : Int), ((e.time / (tpb * 4) : Nat) : Int), e.desc,
        addNote sd.tracks e.desc (qnoteOfEv tpb e)⟩ ∧
    RTInv cfg tpb (stepRows cfg tpb se e).2
      ⟨(e.time : Int), ((e.time / (tpb * 4) : Nat) : Int), e.desc,
        addNote sd.tracks e.desc (qnoteOfEv tpb e)⟩ ∧
    (stepRows cfg tpb se e).2.tick = (e.time : Int) := by
  obtain ⟨hbar, hnd, hphase⟩ := hinv
  have hndadd : (addNote sd.tracks e.desc (qnoteOfEv tpb e)).Pairwise keyNe :=
    pairwise_keyNe_addNote _ _ _ hnd
  have hsomeadd := lookupTag_addNote_self_isSome sd.tracks e.desc (qnoteOfEv tpb e)
  by_cases ht : (e.time : Int) = se.tick
  · -- same tick; the initial phase is impossible
    rcases hphase with ⟨h1, -, -, -⟩ | ⟨t, ht1, -, hbar1, htick1, htrk1, hsome1⟩
    · exfalso
      rw [h1] at ht
      omega
    · have hte : t = e.time := by
        have hcast : (t : Int) = (e.time : Int) := by rw [← ht1, ht]
        exact_mod_cast hcast
      subst hte
      by_cases htr : e.desc = se.track
      · rw [stepRows_same_tick_same_track cfg tpb se e ht htr]
        have hsome' : (lookupTag sd.tracks sd.track).isSome := by rw [htrk1]; exact hsome1
        have htrk2 : sd.track = e.desc := by rw [htrk1, htr]
        refine ⟨?_, ?_, by rw [← ht]⟩
        · rw [decode_note_only cfg tpb sd e _ _ _ hsome', htrk2, htick1, hbar, hbar1]
          rfl
        · refine ⟨hbar1.symm, hndadd, Or.inr ⟨e.time, ht.symm, hal, hbar1, rfl, htr, ?_⟩⟩
          rw [← htr]
          exact hsomeadd
      · rw [stepRows_same_tick_new_track cfg tpb se e ht htr]
        refine ⟨?_, ?_, by rw [← ht]⟩
        · rw [decode_prognote cfg tpb sd e, htick1, hbar, hbar1]
          rfl
        · exact ⟨hbar1.symm, hndadd, Or.inr ⟨e.time, ht.symm, hal, hbar1, rfl, rfl, hsomeadd⟩⟩
  · -- tick change
    have hlt : se.tick < (e.time : Int) := lt_of_le_of_ne htime fun hh => ht hh.symm
    have hdesc2 : e.desc ≠ -2 := by omega
    rw [stepRows_new_tick cfg tpb se e ht hdesc2]
    have hble : se.bar ≤ ((e.time / (tpb * 4) : Nat) : Int) := by
      rcases hphase with ⟨-, h2, -, -⟩ | ⟨t, ht1, -, hbar1, -, -, -⟩
      · rw [h2]
        exact le_trans (by norm_num) (Int.natCast_nonneg _)
      · rw [hbar1]
        have htle : t ≤ e.time := by
          rw [ht1] at hlt
          exact_mod_cast le_of_lt hlt
        exact_mod_cast Nat.div_le_div_right htle
    by_cases hb : se.bar < ((e.time / (tpb * 4) : Nat) : Int)
    · simp only [if_pos hb]
      refine ⟨?_, ?_, by trivial⟩
      · obtain ⟨m, hm⟩ : ∃ m, (((e.time / (tpb * 4) : Nat) : Int) - se.bar).toNat = m + 1 := by
          refine ⟨(((e.time / (tpb * 4) : Nat) : Int) - se.bar).toNat - 1, ?_⟩
          omega
        rw [hm, decodeRows_append,
          decode_barRows cfg tpb (stepTempo cfg se e.time).1 m sd se.bar hbar]
        dsimp only
        have hEq : se.bar + ((m + 1 : Nat) : Int) = ((e.time / (tpb * 4) : Nat) : Int) := by
          omega
        rw [hEq]
        have hnn : (0 : Int) ≤ ((e.time / (tpb * 4) : Nat) : Int) := Int.natCast_nonneg _
        rw [decode_posprognote cfg tpb
          ⟨((e.time / (tpb * 4) : Nat) : Int) * ((tpb : Int) * 4),
           ((e.time / (tpb * 4) : Nat) : Int), sd.track, sd.tracks⟩ e
          (stepTempo cfg se e.time).1 ((e.time / (tpb * 4) : Nat) : Int)
          (((e.time % (tpb * 4)) / (tpb / cfg.maxBeatRes) : Nat) : Int)
          (by dsimp only; omega)]
        rw [tick_align cfg tpb hres e.time hal]
        rfl
      · exact ⟨by trivial, hndadd,
          Or.inr ⟨e.time, by trivial, hal, by trivial, by trivial, by trivial, hsomeadd⟩⟩
    · simp only [if_neg hb]
      have heq : se.bar = ((e.time / (tpb * 4) : Nat) : Int) := le_antisymm hble (not_lt.mp hb)
      have hnn : (0 : Int) ≤ ((e.time / (tpb * 4) : Nat) : Int) := Int.natCast_nonneg _
      refine ⟨?_, ?_, by trivial⟩
      · rw [List.nil_append]
        rw [decode_posprognote cfg tpb sd e (stepTempo cfg se e.time).1 se.bar
          (((e.time % (tpb * 4)) / (tpb / cfg.maxBeatRes) : Nat) : Int) (by omega)]
        rw [hbar, heq, tick_align cfg tpb hres e.time hal]
        rfl
      · exact ⟨by exact heq.symm, hndadd,
          Or.inr ⟨e.time, by trivial, hal, by exact heq, by trivial, by trivial, hsomeadd⟩⟩

theorem rt_loop (cfg : Config) (tpb : Nat) (hres : cfg.maxBeatRes ∣ tpb) :
    ∀ (evs : List Ev) (se : EncSt) (sd : DecSt),
    RTInv cfg tpb se sd →
    (∀ e ∈ evs, -1 ≤ e.desc ∧ (tpb / cfg.maxBeatRes) ∣ e.time) →
    (∀ e ∈ evs, se.tick ≤ (e.time : Int)) →
    List.Pairwise (fun a b : Ev => a.time ≤ b.time) evs →
    ∃ sd', decodeRows cfg tpb sd (encodeFrom cfg tpb se evs) = .ok sd' ∧
      sd'.tracks = evs.foldl (fun m e => addNote m e.desc (qnoteOfEv tpb e)) sd.tracks := by
  intro evs
  induction evs with
  | nil =>
    intro se sd _ _ _ _
    exact ⟨sd, rfl, rfl⟩
  | cons e rest ih =>
    intro se sd hinv hok htime hpw
    obtain ⟨he1, he2⟩ := hok e (by simp)
    obtain ⟨hdec, hinv', htick'⟩ :=
      rt_step cfg tpb hres se sd e hinv he1 he2 (htime e (by simp))
    rw [show encodeFrom cfg tpb se (e :: rest) =
      (stepRows cfg tpb se e).1 ++ encodeFrom cfg tpb (stepRows cfg tpb se e).2 rest from rfl]
    rw [decodeRows_append, hdec]
    dsimp only
    obtain ⟨sd', hdec', htr'⟩ := ih (stepRows cfg tpb se e).2
      ⟨(e.time : Int), ((e.time / (tpb * 4) : Nat) : Int), e.desc,
        addNote sd.tracks e.desc (qnoteOfEv tpb e)⟩
      hinv' (fun e' he' => hok e' (by simp [he']))
      (fun e' he' => by
        rw [htick']
        exact_mod_cast (List.pairwise_cons.mp hpw).1 e' he')
      (List.pairwise_cons.mp hpw).2
    exact ⟨sd', hdec', by rw [htr']; rfl⟩

/-! ### Flattening the reconstructed tracks -/

/-- All `(tag, note)` pairs of the decoder's dictionary, in order. -/
def flatAssoc (m : List (Int × List QNote)) : List (Int × QNote) :=
  (m.map fun p => p.2.map fun n => (p.1, n)).flatten

/-- The `(program, is_drum)` identity of a track tag after finalization. -/
def tagKey (t : Int) : Int × Bool := if t = -1 then (0, true) else (t, false)

/-- All `((program, is_drum), note)` triples of the decoder's final output. -/
def flatTracks (out : List (Int × Bool × List QNote)) : List ((Int × Bool) × QNote) :=
  (out.map fun p => p.2.2.map fun n => ((p.1, p.2.1), n)).flatten

theorem flatAssoc_append (m1 m2 : List (Int × List QNote)) :
    flatAssoc (m1 ++ m2) = flatAssoc m1 ++ flatAssoc m2 := by
  unfold flatAssoc
  rw [List.map_append, List.flatten_append]

theorem flatAssoc_addNote (m : List (Int × List QNote)) (t : Int) (n : QNote)
    (hnd : m.Pairwise keyNe) :
    List.Perm (flatAssoc (addNote m t n)) (flatAssoc m ++ [(t, n)]) := by
  unfold addNote
  by_cases hs : (lookupTag m t).isSome
  · rw [if_pos hs]
    induction m with
    | nil => simp [lookupTag] at hs
    | cons p m' ih =>
      obtain ⟨hhead, hnd'⟩ := List.pairwise_cons.mp hnd
      rw [lookupTag_cons] at hs
      by_cases hk : p.1 = t
      · have hnone : lookupTag m' t = none := by
          rw [lookupTag_eq_none_iff]
          intro q hq
          have := hhead q hq
          unfold keyNe at this
          rw [← hk]
          exact fun hh => this hh.symm
        unfold appendNote
        simp only [List.map_cons, if_pos hk]
        have htl : (m'.map fun q => if q.1 = t then (q.1, q.2 ++ [n]) else q) = m' := by
          have := appendNote_of_not_found m' t n hnone
          unfold appendNote at this
          exact this
        rw [htl]
        unfold flatAssoc
        simp only [List.map_cons, List.flatten_cons, List.map_append, List.map_cons,
          List.map_nil, hk]
        rw [List.append_assoc, List.append_assoc]
        exact List.Perm.append_left _ List.perm_append_comm
      · simp only [if_neg hk] at hs
        unfold appendNote
        simp only [List.map_cons, if_neg hk]
        unfold flatAssoc
        simp only [List.map_cons, List.flatten_cons]
        rw [List.append_assoc]
        refine List.Perm.append_left _ ?_
        have := ih hnd' hs
        unfold appendNote flatAssoc at this
        simpa using this
  · rw [if_neg hs]
    rw [flatAssoc_append]
    simp [flatAssoc]

theorem flatAssoc_fold (cfg : Config) (tpb : Nat) :
    ∀ (evs : List Ev) (m : List (Int × List QNote)), m.Pairwise keyNe →
    List.Perm
      (flatAssoc (evs.foldl (fun m e => addNote m e.desc (qnoteOfEv tpb e)) m))
      (flatAssoc m ++ evs.map fun e => (e.desc, qnoteOfEv tpb e)) := by
  intro evs
  induction evs with
  | nil => intro m _; simp
  | cons e rest ih =>
    intro m hnd
    simp only [List.foldl_cons, List.map_cons]
    have h1 := ih (addNote m e.desc (qnoteOfEv tpb e))
      (pairwise_keyNe_addNote _ _ _ hnd)
    have h2 := flatAssoc_addNote m e.desc (qnoteOfEv tpb e) hnd
    have h3 := h1.trans (List.Perm.append_right _ h2)
    refine h3.trans ?_
    rw [List.append_assoc]
    exact List.Perm.append_left _ (by simp)

theorem pairwise_keyNe_fold (cfg : Config) (tpb : Nat) :
    ∀ (evs : List Ev) (m : List (Int × List QNote)), m.Pairwise keyNe →
    (evs.foldl (fun m e => addNote m e.desc (qnoteOfEv tpb e)) m).Pairwise keyNe := by
  intro evs
  induction evs with
  | nil => intro m h; exact h
  | cons e rest ih =>
    intro m h
    simp only [List.foldl_cons]
    exact ih _ (pairwise_keyNe_addNote _ _ _ h)

theorem flatTracks_finalize (m : List (Int × List QNote)) :
    flatTracks (finalizeTracks m) =
      (flatAssoc m).map fun q => (tagKey q.1, q.2) := by
  induction m with
  | nil => rfl
  | cons p m' ih =>
    unfold finalizeTracks flatTracks flatAssoc at *
    simp only [List.map_cons, List.flatten_cons, List.map_append]
    rw [ih]
    by_cases hp : p.1 = -1 <;> simp [hp, tagKey, List.map_map, Function.comp]

/-! ### Claim C1: encode/decode round trip -/

instance : IsTotal Ev evLe :=
  ⟨fun a b => by unfold evLe; omega⟩

instance : IsTrans Ev evLe :=
  ⟨fun a b c hab hbc => by unfold evLe at *; omega⟩

theorem sortedEvents_pairwise_time (cfg : Config) (D : MidiDoc) :
    List.Pairwise (fun a b : Ev => a.time ≤ b.time) (sortedEvents cfg D) := by
  have hs := List.sorted_insertionSort evLe (docEvents cfg D)
  exact hs.imp fun hab => by unfold evLe at hab; omega

theorem mem_sortedEvents_iff (cfg : Config) (D : MidiDoc) (e : Ev) :
    e ∈ sortedEvents cfg D ↔ e ∈ docEvents cfg D :=
  (List.perm_insertionSort evLe (docEvents cfg D)).mem_iff

theorem docEvents_ok (cfg : Config) (D : MidiDoc)
    (hnd : ∀ t ∈ D.instruments, t.is_drum = false → 0 ≤ t.program)
    (hal : ∀ t ∈ D.instruments, ∀ n ∈ t.notes,
      (D.ticks_per_beat / cfg.maxBeatRes) ∣ n.start) :
    ∀ e ∈ docEvents cfg D,
      -1 ≤ e.desc ∧ (D.ticks_per_beat / cfg.maxBeatRes) ∣ e.time := by
  intro e he
  unfold docEvents at he
  rw [List.mem_flatten] at he
  obtain ⟨l, hl, hel⟩ := he
  rw [List.mem_map] at hl
  obtain ⟨t, ht, rfl⟩ := hl
  have htmem : t ∈ D.instruments := List.mem_of_mem_filter ht
  unfold track_to_tokens at hel
  rw [List.mem_map] at hel
  obtain ⟨n, hn, rfl⟩ := hel
  dsimp only
  cases hdd : t.is_drum with
  | true => exact ⟨by norm_num, by simpa using hal t htmem n hn⟩
  | false =>
    have hp := hnd t htmem hdd
    exact ⟨by simp; omega, by simpa using hal t htmem n hn⟩

/-- The duration-triple label written by `track_to_tokens` converts back to
exactly the nearest duration bin. -/
theorem durTicks_getD (cfg : Config) (tpb : Nat) (d : Int)
    (hne : cfg.durations ≠ []) :
    durTicks tpb (cfg.durations.getD (argminAbs d (durBins cfg tpb)) (0, 0, 0)) =
      nearestDurBin (durBins cfg tpb) d := by
  have hmapne : durBins cfg tpb ≠ [] := by
    unfold durBins
    simpa using hne
  have hlt := argminAbs_lt_length d (durBins cfg tpb) hmapne
  have hlt' : argminAbs d (durBins cfg tpb) < cfg.durations.length := by
    unfold durBins at hlt
    simpa using hlt
  unfold nearestDurBin
  rw [List.getD_eq_getElem _ _ hlt, List.getD_eq_getElem _ _ hlt']
  unfold durBins
  rw [List.getElem_map]

/-- Per claim: the note the decoder should rebuild — pitch and velocity kept,
start tick kept (grid-aligned input), duration the nearest bin for the raw
duration `end - start`. -/
def specNote (cfg : Config) (tpb : Nat) (n : MNote) : QNote :=
  ⟨n.velocity, n.pitch, (n.start : Int),
   (n.start : Int) + (nearestDurBin (durBins cfg tpb) ((n.fin : Int) - (n.start : Int)) : Int)⟩

/-- Per claim (`decode(encode(D))` contents): every note of every allowed track
of `D`, quantized as in `specNote`, keyed by its track identity — all
percussion collapsed onto the single drum track `(program 0, is_drum)`, melodic
notes onto `(program, not drum)`. -/
def specNotes (cfg : Config) (D : MidiDoc) : List ((Int × Bool) × QNote) :=
  ((D.instruments.filter fun t => t.program ∈ cfg.programs).map fun t =>
    t.notes.map fun n =>
      ((if t.is_drum then ((0 : Int), true) else (t.program, false)),
        specNote cfg D.ticks_per_beat n)).flatten

theorem docEvents_map_spec (cfg : Config) (D : MidiDoc)
    (hdur : cfg.durations ≠ [])
    (hnd : ∀ t ∈ D.instruments, t.is_drum = false → 0 ≤ t.program) :
    (docEvents cfg D).map
      (fun e => (tagKey e.desc, qnoteOfEv D.ticks_per_beat e)) = specNotes cfg D := by
  unfold docEvents specNotes
  rw [List.map_flatten, List.map_map]
  congr 1
  apply List.map_congr_left
  intro t ht
  have htmem : t ∈ D.instruments := List.mem_of_mem_filter ht
  simp only [Function.comp]
  unfold track_to_tokens
  rw [List.map_map]
  apply List.map_congr_left
  intro n hn
  simp only [Function.comp]
  have hq := durTicks_getD cfg D.ticks_per_beat ((n.fin : Int) - (n.start : Int)) hdur
  cases hdd : t.is_drum with
  | true =>
    simp [hdd, tagKey, qnoteOfEv, specNote]
    simpa using hq
  | false =>
    have hp := hnd t htmem hdd
    have hne : ¬(t.program = -1) := by omega
    simp [hdd, tagKey, qnoteOfEv, specNote, hne]
    simpa using hq

theorem pairwise_finalize (m : List (Int × List QNote)) (h : m.Pairwise keyNe) :
    (finalizeTracks m).Pairwise fun a b => (a.1, a.2.1) ≠ (b.1, b.2.1) := by
  unfold finalizeTracks
  refine h.map _ ?_
  intro a b hab
  unfold keyNe at hab
  by_cases ha : a.1 = -1 <;> by_cases hb : b.1 = -1
  · exact absurd (ha.trans hb.symm) hab
  · simp [ha, hb]
  · simp [ha, hb]
  · simp only [if_neg ha, if_neg hb]
    simp [hab]

/-- The structural validity hypotheses for the round trip, matching the
claim's "tracks use allowed programs and notes lie within the vocabulary's
ranges": a non-empty tempo list (encode reads its head), the configured finest
resolution divides the time division, a non-empty duration table with positive
`res` components, allowed programs, real (non-negative) programs on melodic
tracks, and note starts already on the encoder's sample grid (the preprocess
step quantizes them before `_midi_to_tokens` runs). -/
structure RoundTripOK (cfg : Config) (D : MidiDoc) : Prop where
  tempos_nonempty : D.tempo_changes ≠ []
  res_pos : 0 < cfg.maxBeatRes
  res_dvd : cfg.maxBeatRes ∣ D.ticks_per_beat
  durs_nonempty : cfg.durations ≠ []
  progs_allowed : ∀ t ∈ D.instruments, t.program ∈ cfg.programs
  nondrum_prog_nonneg : ∀ t ∈ D.instruments, t.is_drum = false → 0 ≤ t.program
  starts_aligned : ∀ t ∈ D.instruments, ∀ n ∈ t.notes,
    (D.ticks_per_beat / cfg.maxBeatRes) ∣ n.start

/-- C1: for every valid document, decoding the encoder's token sequence (with
the document's own time division) succeeds and yields tracks whose flattened
`((program, is_drum), note)` content is exactly (a permutation of) every note
of `D` with pitch and velocity preserved, start tick preserved on the quantized
grid, duration the nearest bin — grouped by program id with all percussion
collapsed onto one drum track (the output track keys are pairwise distinct). -/
theorem mumidi_roundtrip (cfg : Config) (cap : Nat) (D : MidiDoc)
    (h : RoundTripOK cfg D) :
    ∃ rows out,
      (midi_to_tokens cfg cap D).2 = .ok rows ∧
      tokens_to_midi cfg D.ticks_per_beat rows = .ok out ∧
      List.Perm (flatTracks out) (specNotes cfg D) ∧
      out.Pairwise (fun a b => (a.1, a.2.1) ≠ (b.1, b.2.1)) := by
  obtain ⟨t0, trest, hT⟩ : ∃ t0 trest, D.tempo_changes = t0 :: trest := by
    cases htc : D.tempo_changes with
    | nil => exact absurd htc h.tempos_nonempty
    | cons a l => exact ⟨a, l, rfl⟩
  have hmod : D.ticks_per_beat % cfg.maxBeatRes = 0 := by
    obtain ⟨c, hc⟩ := h.res_dvd
    rw [hc]
    exact Nat.mul_mod_right _ _
  have hfacts := docEvents_ok cfg D h.nondrum_prog_nonneg h.starts_aligned
  have hinv0 : RTInv cfg D.ticks_per_beat ⟨-1, -1, -1, -2, t0.tempo, trest⟩ ⟨0, -1, 0, []⟩ :=
    ⟨rfl, List.Pairwise.nil, Or.inl ⟨rfl, rfl, rfl, rfl⟩⟩
  obtain ⟨sd', hdec, htr⟩ := rt_loop cfg D.ticks_per_beat h.res_dvd
    (sortedEvents cfg D) ⟨-1, -1, -1, -2, t0.tempo, trest⟩ ⟨0, -1, 0, []⟩ hinv0
    (fun e he => hfacts e ((mem_sortedEvents_iff cfg D e).mp he))
    (fun e _ => le_trans (by norm_num) (Int.natCast_nonneg _))
    (sortedEvents_pairwise_time cfg D)
  refine ⟨encodeFrom cfg D.ticks_per_beat ⟨-1, -1, -1, -2, t0.tempo, trest⟩
    (sortedEvents cfg D), finalizeTracks sd'.tracks, ?_, ?_, ?_, ?_⟩
  · unfold midi_to_tokens
    rw [hT]
  · unfold tokens_to_midi
    rw [if_neg (by simpa using hmod), hdec]
  · rw [flatTracks_finalize]
    have h2 := flatAssoc_fold cfg D.ticks_per_beat (sortedEvents cfg D) []
      List.Pairwise.nil
    rw [← htr] at h2
    simp only [show flatAssoc [] = [] from rfl, List.nil_append] at h2
    have h3 := h2.map fun q : Int × QNote => (tagKey q.1, q.2)
    rw [List.map_map] at h3
    refine h3.trans ?_
    have h5 := (List.perm_insertionSort evLe (docEvents cfg D)).map
      fun e => (tagKey e.desc, qnoteOfEv D.ticks_per_beat e)
    have h6 : ((sortedEvents cfg D).map
        fun e => (tagKey e.desc, qnoteOfEv D.ticks_per_beat e)).Perm
        (specNotes cfg D) := by
      rw [← docEvents_map_spec cfg D h.durs_nonempty h.nondrum_prog_nonneg]
      exact h5
    exact h6
  · apply pairwise_finalize
    rw [htr]
    exact pairwise_keyNe_fold cfg D.ticks_per_beat _ [] List.Pairwise.nil

/-- A two-track document (one melodic, one percussion, with a multi-bar gap)
used to instantiate the round-trip theorem. -/
def rtDoc : MidiDoc :=
  ⟨[⟨0, false, [⟨60, 80, 0, 240⟩, ⟨62, 90, 3840, 4080⟩]⟩,
    ⟨0, true, [⟨40, 70, 0, 120⟩]⟩],
   [⟨500000, 0⟩], 480⟩

theorem mumidi_roundtrip_witness :
    RoundTripOK scenarioCfg rtDoc ∧
    (∃ rows out,
      (midi_to_tokens scenarioCfg 60 rtDoc).2 = .ok rows ∧
      tokens_to_midi scenarioCfg rtDoc.ticks_per_beat rows = .ok out ∧
      List.Perm (flatTracks out) (specNotes scenarioCfg rtDoc) ∧
      out.Pairwise fun a b => (a.1, a.2.1) ≠ (b.1, b.2.1)) := by
  have hOK : RoundTripOK scenarioCfg rtDoc :=
    ⟨by decide, by decide, by decide, by decide, by decide, by decide, by decide⟩
  exact ⟨hOK, mumidi_roundtrip scenarioCfg 60 rtDoc hOK⟩

/-! ### Claim C7: the validator scores encoder output as error-free -/

theorem valStep_barRow (cfg : Config) (cur : Nat) (st : ValSt) (b : Int)
    (h : allowedAfter st.prev .bar = true) (hb : b = st.bar + 1) :
    valStep st (barRow cfg cur b) = ⟨st.err, .bar, st.bar + 1, -1, []⟩ := by
  subst hb
  unfold valStep barRow
  rw [if_neg (by simp : ¬(Tok.bar = Tok.pad)), if_pos h]
  dsimp only
  rw [if_neg (by simp)]

theorem valStep_posRow (cfg : Config) (cur : Nat) (st : ValSt) (b p : Int)
    (h : allowedAfter st.prev (.position p) = true) (hp : st.pos < p) (hb : b = st.bar) :
    valStep st (posRow cfg cur b p) = ⟨st.err, .position p, st.bar, p, []⟩ := by
  subst hb
  unfold valStep posRow
  rw [if_neg (by simp : ¬(Tok.position p = Tok.pad)), if_pos h]
  dsimp only
  rw [if_neg (show ¬(p ≤ st.pos ∨ p ≠ (some p).getD (-1)) by
    simp only [Option.getD_some]
    omega)]
  dsimp only
  rw [if_neg (show ¬((some p).getD (-1) < p ∨ st.bar < st.bar) by
    simp only [Option.getD_some]
    omega)]

theorem valStep_progRow (cfg : Config) (cur : Nat) (st : ValSt) (b p v : Int)
    (h : allowedAfter st.prev (.program v) = true) (hb : b = st.bar) (hp : p = st.pos) :
    valStep st (progRow cfg cur b p v) = ⟨st.err, .program v, st.bar, st.pos, []⟩ := by
  subst hb
  subst hp
  unfold valStep progRow
  rw [if_neg (by simp : ¬(Tok.program v = Tok.pad)), if_pos h]
  dsimp only
  rw [if_neg (by simp only [Option.getD_some]; omega)]

theorem valStep_noteRow (cfg : Config) (cur : Nat) (st : ValSt) (b p : Int) (e : Ev)
    (h : allowedAfter st.prev (if e.is_drum then .drumPitch e.pitch else .pitch e.pitch) = true)
    (hfresh : e.is_drum = false → e.pitch ∉ st.pitches)
    (hb : b = st.bar) (hp : p = st.pos) :
    valStep st (noteRow cfg cur b p e) =
      ⟨st.err, if e.is_drum then .drumPitch e.pitch else .pitch e.pitch, st.bar, st.pos,
       if e.is_drum then st.pitches else st.pitches ++ [e.pitch]⟩ := by
  subst hb
  subst hp
  unfold noteRow
  cases hd : e.is_drum with
  | true =>
    simp only [hd, eq_self_iff_true, if_true] at h ⊢
    unfold valStep
    rw [if_neg (by simp : ¬(Tok.drumPitch e.pitch = Tok.pad)), if_pos h]
    dsimp only
    rw [if_neg (show ¬((some st.pos).getD (-1) < st.pos ∨ st.bar < st.bar) by
      simp only [Option.getD_some]
      omega)]
  | false =>
    have hfr := hfresh hd
    simp only [hd, Bool.false_eq_true, if_false] at h ⊢
    unfold valStep
    rw [if_neg (by simp : ¬(Tok.pitch e.pitch = Tok.pad)), if_pos h]
    dsimp only
    rw [if_neg hfr]
    dsimp only
    rw [if_neg (show ¬((some st.pos).getD (-1) < st.pos ∨ st.bar < st.bar) by
      simp only [Option.getD_some]
      omega)]

theorem val_barRows (cfg : Config) (cur : Nat) (j : Nat) :
    ∀ (vs : ValSt) (c : Int), vs.bar = c → allowedAfter vs.prev .bar = true →
    ((List.range (j + 1)).map fun i : Nat => barRow cfg cur (c + (i : Int) + 1)).foldl
      valStep vs = ⟨vs.err, .bar, c + (j + 1 : Nat), -1, []⟩ := by
  induction j with
  | zero =>
    intro vs c hc hall
    rw [show List.range 1 = [0] from rfl]
    simp only [List.map_cons, List.map_nil, List.foldl_cons, List.foldl_nil]
    rw [valStep_barRow cfg cur vs _ hall (by omega)]
    have hfield : vs.bar + 1 = c + ((0 + 1 : Nat) : Int) := by omega
    rw [hfield]
  | succ j' ih =>
    intro vs c hc hall
    rw [List.range_succ_eq_map]
    simp only [List.map_cons, List.map_map, List.foldl_cons]
    rw [valStep_barRow cfg cur vs _ hall (by omega)]
    have hfun : ((fun i : Nat => barRow cfg cur (c + (i : Int) + 1)) ∘ Nat.succ) =
        fun i : Nat => barRow cfg cur ((c + 1) + (i : Int) + 1) := by
      funext i
      simp only [Function.comp]
      congr 1
      push_cast
      ring
    rw [hfun, hc]
    rw [ih ⟨vs.err, .bar, c + 1, -1, []⟩ (c + 1) rfl rfl]
    have hfield : c + 1 + ((j' + 1 : Nat) : Int) = c + ((j' + 1 + 1 : Nat) : Int) := by
      push_cast
      ring
    rw [hfield]

theorem val_posprognote (cfg : Config) (cur : Nat) (vs : ValSt) (e : Ev) (b p : Int)
    (hall : allowedAfter vs.prev (.position p) = true)
    (hp : vs.pos < p) (hb : b = vs.bar) :
    ([posRow cfg cur b p, progRow cfg cur b p e.desc,
      noteRow cfg cur b p e].foldl valStep vs) =
      ⟨vs.err, (if e.is_drum then .drumPitch e.pitch else .pitch e.pitch), vs.bar, p,
       if e.is_drum then [] else [e.pitch]⟩ := by
  simp only [List.foldl_cons, List.foldl_nil]
  rw [valStep_posRow cfg cur vs b p hall hp hb]
  rw [valStep_progRow cfg cur ⟨vs.err, .position p, vs.bar, p, []⟩ b p e.desc rfl hb rfl]
  rw [valStep_noteRow cfg cur ⟨vs.err, .program e.desc, vs.bar, p, []⟩ b p e
    (by cases hde : e.is_drum <;> simp [hde, allowedAfter])
    (fun _ => by simp) hb rfl]
  cases hde : e.is_drum <;> simp [hde]

/-- Event-side facts used by the validator simulation: grid-aligned time and
the drum flag determined by the `-1` tag. -/
def EvOk7 (cfg : Config) (tpb : Nat) (e : Ev) : Prop :=
  (tpb / cfg.maxBeatRes) ∣ e.time ∧ (e.is_drum = true ↔ e.desc = -1)

/-- No duplicate simultaneous pitch on one track: two melodic events with the
same time and tag have distinct pitches. -/
def R7 (a b : Ev) : Prop :=
  a.time = b.time → a.desc = b.desc → a.is_drum = false → b.is_drum = false →
    a.pitch ≠ b.pitch

theorem R7_symm : ∀ {a b : Ev}, R7 a b → R7 b a := by
  intro a b hab h1 h2 h3 h4
  exact (hab h1.symm h2.symm h4 h3).symm

theorem pos_strict (cfg : Config) (tpb : Nat) (hres : cfg.maxBeatRes ∣ tpb)
    (t u : Nat) (halt : (tpb / cfg.maxBeatRes) ∣ t) (halu : (tpb / cfg.maxBeatRes) ∣ u)
    (hlt : t < u) (hbar : t / (tpb * 4) = u / (tpb * 4)) :
    (t % (tpb * 4)) / (tpb / cfg.maxBeatRes) < (u % (tpb * 4)) / (tpb / cfg.maxBeatRes) := by
  have hsb : (tpb / cfg.maxBeatRes) ∣ (tpb * 4) :=
    Dvd.dvd.mul_right (sample_dvd_tpb cfg tpb hres) 4
  have h1 := Nat.div_add_mod t (tpb * 4)
  have h2 := Nat.div_add_mod u (tpb * 4)
  rw [hbar] at h1
  have hmod : t % (tpb * 4) < u % (tpb * 4) := by omega
  have hsm_u : (tpb / cfg.maxBeatRes) ∣ (u % (tpb * 4)) := (Nat.dvd_mod_iff hsb).mpr halu
  exact Nat.div_lt_div_of_lt_of_dvd hsm_u hmod

/-- Validator-simulation invariant at block boundaries: the encoder state sits
on a grid-aligned tick with consistent bar/position, the validator mirrors its
bar and position with zero new errors, the previous token is the note token of
the current run's kind, and the pending events avoid the run's pitches. -/
def ValInv (cfg : Config) (tpb : Nat) (evs : List Ev) (se : EncSt) (vs : ValSt) : Prop :=
  (∃ t : Nat, se.tick = (t : Int) ∧ (tpb / cfg.maxBeatRes) ∣ t ∧
    se.bar = ((t / (tpb * 4) : Nat) : Int) ∧
    se.pos = (((t % (tpb * 4)) / (tpb / cfg.maxBeatRes) : Nat) : Int)) ∧
  vs.bar = se.bar ∧ vs.pos = se.pos ∧
  ((se.track = -1 ∧ (∃ p0, vs.prev = .drumPitch p0)) ∨
    (0 ≤ se.track ∧ (∃ p0, vs.prev = .pitch p0))) ∧
  (∀ e ∈ evs, (e.time : Int) = se.tick → e.desc = se.track →
    e.is_drum = false → e.pitch ∉ vs.pitches)

theorem val_step7 (cfg : Config) (tpb : Nat) (hres : cfg.maxBeatRes ∣ tpb)
    (se : EncSt) (vs : ValSt) (e : Ev) (rest : List Ev)
    (hinv : ValInv cfg tpb (e :: rest) se vs)
    (hok : EvOk7 cfg tpb e) (hdesc : -1 ≤ e.desc)
    (htime : se.tick ≤ (e.time : Int))
    (hR : ∀ e' ∈ rest, R7 e e') :
    ((stepRows cfg tpb se e).1.foldl valStep vs).err = vs.err ∧
    ValInv cfg tpb rest (stepRows cfg tpb se e).2
      ((stepRows cfg tpb se e).1.foldl valStep vs) ∧
    (stepRows cfg tpb se e).2.tick = (e.time : Int) := by
  obtain ⟨⟨t, ht1, hal1, hbar1, hpos1⟩, hvbar, hvpos, hkind, hfresh⟩ := hinv
  obtain ⟨hale, hiff⟩ := hok
  have hkindcase2 : (e.desc = -1 ∧ e.is_drum = true) ∨ (0 ≤ e.desc ∧ e.is_drum = false) := by
    cases hdd : e.is_drum
    · refine Or.inr ⟨?_, rfl⟩
      have hne : ¬ e.desc = -1 := fun hh => by
        rw [hiff.mpr hh] at hdd
        cases hdd
      omega
    · exact Or.inl ⟨hiff.mp hdd, rfl⟩
  by_cases ht : (e.time : Int) = se.tick
  · have hte : t = e.time := by
      have hcast : (t : Int) = (e.time : Int) := by rw [← ht1, ht]
      exact_mod_cast hcast
    subst hte
    by_cases htr : e.desc = se.track
    · rw [stepRows_same_tick_same_track cfg tpb se e ht htr]
      simp only [List.foldl_cons, List.foldl_nil]
      have hkind2 : allowedAfter vs.prev
          (if e.is_drum then .drumPitch e.pitch else .pitch e.pitch) = true := by
        rcases hkind with ⟨hm, p0, hprev⟩ | ⟨hm, p0, hprev⟩
        · have hdd : e.is_drum = true := hiff.mpr (htr.trans hm)
          rw [hprev, hdd]
          rfl
        · have hdd : e.is_drum = false := by
            rcases hkindcase2 with ⟨h1, -⟩ | ⟨-, h2⟩
            · omega
            · exact h2
          rw [hprev, hdd]
          rfl
      rw [valStep_noteRow cfg _ vs se.bar se.pos e hkind2
        (fun hnd => hfresh e (by simp) ht htr hnd) hvbar.symm hvpos.symm]
      refine ⟨rfl, ⟨⟨e.time, ht.symm, hal1, hbar1, hpos1⟩, hvbar, hvpos, ?_, ?_⟩, ht.symm⟩
      · rcases hkindcase2 with ⟨h1, h2⟩ | ⟨h1, h2⟩
        · exact Or.inl ⟨htr ▸ h1, e.pitch, by simp [h2]⟩
        · exact Or.inr ⟨htr ▸ h1, e.pitch, by simp [h2]⟩
      · intro e' he' h1 h2 h3
        have hold := hfresh e' (by simp [he']) h1 h2 h3
        cases hdd : e.is_drum with
        | true => simpa [hdd] using hold
        | false =>
          have htimeeq : e'.time = e.time := by
            have hcc : (e'.time : Int) = (e.time : Int) := by rw [h1, ht]
            exact_mod_cast hcc
          have hne := hR e' he' htimeeq.symm (htr.trans h2.symm) hdd h3
          simp only [hdd, Bool.false_eq_true, if_false, List.mem_append,
            List.mem_singleton]
          push_neg
          exact ⟨hold, fun hh => hne hh.symm⟩
    · rw [stepRows_same_tick_new_track cfg tpb se e ht htr]
      simp only [List.foldl_cons, List.foldl_nil]
      have hallprog : allowedAfter vs.prev (.program e.desc) = true := by
        rcases hkind with ⟨-, p0, hprev⟩ | ⟨-, p0, hprev⟩ <;> rw [hprev] <;> rfl
      rw [valStep_progRow cfg _ vs se.bar se.pos e.desc hallprog hvbar.symm hvpos.symm]
      rw [valStep_noteRow cfg _ ⟨vs.err, .program e.desc, vs.bar, vs.pos, []⟩
        se.bar se.pos e
        (by cases hdd : e.is_drum <;> simp [hdd, allowedAfter])
        (fun _ => by simp) hvbar.symm hvpos.symm]
      refine ⟨rfl, ⟨⟨e.time, ht.symm, hal1, hbar1, hpos1⟩, hvbar, hvpos, ?_, ?_⟩, ht.symm⟩
      · rcases hkindcase2 with ⟨h1, h2⟩ | ⟨h1, h2⟩
        · exact Or.inl ⟨h1, e.pitch, by simp [h2]⟩
        · exact Or.inr ⟨h1, e.pitch, by simp [h2]⟩
      · intro e' he' h1 h2 h3
        cases hdd : e.is_drum with
        | true => simp [hdd]
        | false =>
          have htimeeq : e'.time = e.time := by
            have hcc : (e'.time : Int) = (e.time : Int) := by rw [h1, ht]
            exact_mod_cast hcc
          have hne := hR e' he' htimeeq.symm h2.symm hdd h3
          simp only [hdd, Bool.false_eq_true, if_false, List.nil_append,
            List.mem_singleton]
          exact fun hh => hne hh.symm
  · have hlt : se.tick < (e.time : Int) := lt_of_le_of_ne htime fun hh => ht hh.symm
    have hdesc2 : e.desc ≠ -2 := by omega
    rw [stepRows_new_tick cfg tpb se e ht hdesc2]
    have htle : t ≤ e.time := by
      rw [ht1] at hlt
      exact_mod_cast le_of_lt hlt
    have hble : se.bar ≤ ((e.time / (tpb * 4) : Nat) : Int) := by
      rw [hbar1]
      exact_mod_cast Nat.div_le_div_right htle
    have hkindbar : allowedAfter vs.prev .bar = true := by
      rcases hkind with ⟨-, p0, hprev⟩ | ⟨-, p0, hprev⟩ <;> rw [hprev] <;> rfl
    have hkindpos : ∀ p : Int, allowedAfter vs.prev (.position p) = true := by
      intro p
      rcases hkind with ⟨-, p0, hprev⟩ | ⟨-, p0, hprev⟩ <;> rw [hprev] <;> rfl
    have hnn : (0 : Int) ≤ (((e.time % (tpb * 4)) / (tpb / cfg.maxBeatRes) : Nat) : Int) :=
      Int.natCast_nonneg _
    have hkindnew : (e.desc = -1 ∧
        ∃ p0, (if e.is_drum then Tok.drumPitch e.pitch else Tok.pitch e.pitch) =
          .drumPitch p0) ∨ (0 ≤ e.desc ∧
        ∃ p0, (if e.is_drum then Tok.drumPitch e.pitch else Tok.pitch e.pitch) =
          .pitch p0) := by
      rcases hkindcase2 with ⟨h1, h2⟩ | ⟨h1, h2⟩
      · exact Or.inl ⟨h1, e.pitch, by simp [h2]⟩
      · exact Or.inr ⟨h1, e.pitch, by simp [h2]⟩
    have hfresh' : ∀ e' ∈ rest, (e'.time : Int) = (e.time : Int) → e'.desc = e.desc →
        e'.is_drum = false →
        e'.pitch ∉ (if e.is_drum then ([] : List Nat) else [e.pitch]) := by
      intro e' he' h1 h2 h3
      cases hdd : e.is_drum with
      | true => simp [hdd]
      | false =>
        have htimeeq : e'.time = e.time := by exact_mod_cast h1
        have hne := hR e' he' htimeeq.symm h2.symm hdd h3
        simp only [hdd, Bool.false_eq_true, if_false, List.mem_singleton]
        exact fun hh => hne (hh ▸ rfl)
    by_cases hb : se.bar < ((e.time / (tpb * 4) : Nat) : Int)
    · simp only [if_pos hb]
      obtain ⟨m, hm⟩ : ∃ m, (((e.time / (tpb * 4) : Nat) : Int) - se.bar).toNat = m + 1 := by
        refine ⟨(((e.time / (tpb * 4) : Nat) : Int) - se.bar).toNat - 1, ?_⟩
        omega
      rw [hm, List.foldl_append,
        val_barRows cfg (stepTempo cfg se e.time).1 m vs se.bar hvbar hkindbar]
      have hEq : se.bar + ((m + 1 : Nat) : Int) = ((e.time / (tpb * 4) : Nat) : Int) := by
        omega
      rw [hEq]
      rw [val_posprognote cfg (stepTempo cfg se e.time).1
        ⟨vs.err, .bar, ((e.time / (tpb * 4) : Nat) : Int), -1, []⟩ e
        ((e.time / (tpb * 4) : Nat) : Int)
        (((e.time % (tpb * 4)) / (tpb / cfg.maxBeatRes) : Nat) : Int)
        rfl (by dsimp only; omega) rfl]
      exact ⟨by trivial, ⟨⟨e.time, by trivial, hale, by trivial, by trivial⟩,
        by trivial, by trivial, hkindnew, hfresh'⟩, by trivial⟩
    · simp only [if_neg hb]
      have heq : se.bar = ((e.time / (tpb * 4) : Nat) : Int) := le_antisymm hble (not_lt.mp hb)
      have hbarnat : t / (tpb * 4) = e.time / (tpb * 4) := by
        have hh := heq
        rw [hbar1] at hh
        exact_mod_cast hh
      have htne : t < e.time := by
        rw [ht1] at hlt
        exact_mod_cast hlt
      have hposlt : vs.pos <
          (((e.time % (tpb * 4)) / (tpb / cfg.maxBeatRes) : Nat) : Int) := by
        rw [hvpos, hpos1]
        exact_mod_cast pos_strict cfg tpb hres t e.time hal1 hale htne hbarnat
      rw [List.nil_append]
      rw [val_posprognote cfg (stepTempo cfg se e.time).1 vs e se.bar
        (((e.time % (tpb * 4)) / (tpb / cfg.maxBeatRes) : Nat) : Int)
        (hkindpos _) hposlt hvbar.symm]
      refine ⟨by trivial, ⟨⟨e.time, by trivial, hale, by exact heq, by trivial⟩,
        by exact hvbar, by trivial, hkindnew, hfresh'⟩, by trivial⟩

/-- The drum flag of every produced event is equivalent to the `-1` tag when
melodic tracks carry real (non-negative) program numbers (`track_to_tokens`
tags drums with `-1` and melodic notes with the track's program). -/
theorem docEvents_drum_iff (cfg : Config) (D : MidiDoc)
    (hnd : ∀ t ∈ D.instruments, t.is_drum = false → 0 ≤ t.program) :
    ∀ e ∈ docEvents cfg D, (e.is_drum = true ↔ e.desc = -1) := by
  intro e he
  unfold docEvents at he
  rw [List.mem_flatten] at he
  obtain ⟨l, hl, hel⟩ := he
  rw [List.mem_map] at hl
  obtain ⟨t, ht, rfl⟩ := hl
  have htmem : t ∈ D.instruments := List.mem_of_mem_filter ht
  unfold track_to_tokens at hel
  rw [List.mem_map] at hel
  obtain ⟨n, hn, rfl⟩ := hel
  dsimp only
  cases hdd : t.is_drum with
  | true => simp [hdd]
  | false =>
    have hp := hnd t htmem hdd
    simp only [hdd, Bool.false_eq_true, if_false]
    constructor
    · intro hh
      cases hh
    · intro hh
      exact absurd hh (by omega)

/-- Folding the validator over any run of consecutive catch-up Bar rows from a
state that sits right after a Bar row: the bar counter advances by the run's
length and no error accrues (also for the empty run). -/
theorem val_barRows0 (cfg : Config) (cur : Nat) (q : Nat) :
    ∀ (vs : ValSt) (c : Int), vs.bar = c → vs.prev = .bar → vs.pos = -1 →
    vs.pitches = [] →
    (((List.range q).map fun i : Nat => barRow cfg cur (c + (i : Int) + 1)).foldl
      valStep vs) = ⟨vs.err, .bar, c + (q : Int), -1, []⟩ := by
  induction q with
  | zero =>
    intro vs c hbar hprev hpos hpit
    simp only [List.range_zero, List.map_nil, List.foldl_nil]
    have hc : c + ((0 : Nat) : Int) = c := by omega
    rw [hc, ← hbar, ← hprev, ← hpos, ← hpit]
  | succ j ih =>
    intro vs c hbar hprev hpos hpit
    rw [List.range_succ_eq_map]
    simp only [List.map_cons, List.map_map, List.foldl_cons]
    rw [valStep_barRow cfg cur vs _ (by rw [hprev]; rfl) (by omega)]
    have hfun : ((fun i : Nat => barRow cfg cur (c + (i : Int) + 1)) ∘ Nat.succ) =
        fun i : Nat => barRow cfg cur ((c + 1) + (i : Int) + 1) := by
      funext i
      simp only [Function.comp]
      congr 1
      push_cast
      ring
    rw [hfun]
    rw [ih ⟨vs.err, .bar, vs.bar + 1, -1, []⟩ (c + 1) (by dsimp only; omega) rfl rfl rfl]
    have hfield : c + 1 + (j : Int) = c + ((j + 1 : Nat) : Int) := by
      push_cast
      ring
    rw [hfield]

/-- Folding the validator over the whole encoder output from an invariant
state accrues no error. -/
theorem val_loop (cfg : Config) (tpb : Nat) (hres : cfg.maxBeatRes ∣ tpb) :
    ∀ (evs : List Ev) (se : EncSt) (vs : ValSt),
    ValInv cfg tpb evs se vs →
    (∀ e ∈ evs, EvOk7 cfg tpb e ∧ -1 ≤ e.desc) →
    (∀ e ∈ evs, se.tick ≤ (e.time : Int)) →
    List.Pairwise (fun a b : Ev => a.time ≤ b.time) evs →
    List.Pairwise R7 evs →
    ((encodeFrom cfg tpb se evs).foldl valStep vs).err = vs.err := by
  intro evs
  induction evs with
  | nil =>
    intro se vs _ _ _ _ _
    rfl
  | cons e rest ih =>
    intro se vs hinv hok htime hsort hR
    obtain ⟨hok1, hok2⟩ := hok e (by simp)
    obtain ⟨herr, hinv2, htick2⟩ := val_step7 cfg tpb hres se vs e rest hinv hok1 hok2
      (htime e (by simp)) (List.pairwise_cons.mp hR).1
    rw [show encodeFrom cfg tpb se (e :: rest) =
      (stepRows cfg tpb se e).1 ++ encodeFrom cfg tpb (stepRows cfg tpb se e).2 rest from rfl]
    rw [List.foldl_append]
    rw [ih (stepRows cfg tpb se e).2 _ hinv2
      (fun x hx => hok x (by simp [hx]))
      (fun x hx => by
        rw [htick2]
        exact_mod_cast (List.pairwise_cons.mp hsort).1 x hx)
      (List.pairwise_cons.mp hsort).2 (List.pairwise_cons.mp hR).2]
    exact herr

/-- Validator behaviour over the encoder's very first block (from the sentinel
state): the first emitted row is a Bar row, folding the validator over the rest
of the block from the state `tokens_errors` initializes on that row accrues no
error, and the block establishes the simulation invariant at the event's tick. -/
theorem val_first_block (cfg : Config) (tpb : Nat) (tc0 : Nat)
    (tr0 : List MTempoChange) (e : Ev) (evs : List Ev)
    (hok : EvOk7 cfg tpb e) (hdesc : -1 ≤ e.desc)
    (hR : ∀ e' ∈ evs, R7 e e') :
    ∃ r0 rs,
      (stepRows cfg tpb ⟨-1, -1, -1, -2, tc0, tr0⟩ e).1 = r0 :: rs ∧
      (rs.foldl valStep ⟨0, r0.tok, r0.barPE, r0.posPE.getD (-1), []⟩).err = 0 ∧
      ValInv cfg tpb evs (stepRows cfg tpb ⟨-1, -1, -1, -2, tc0, tr0⟩ e).2
        (rs.foldl valStep ⟨0, r0.tok, r0.barPE, r0.posPE.getD (-1), []⟩) ∧
      (stepRows cfg tpb ⟨-1, -1, -1, -2, tc0, tr0⟩ e).2.tick = (e.time : Int) := by
  obtain ⟨hale, hiff⟩ := hok
  have hkindcase2 : (e.desc = -1 ∧ e.is_drum = true) ∨ (0 ≤ e.desc ∧ e.is_drum = false) := by
    cases hdd : e.is_drum
    · refine Or.inr ⟨?_, rfl⟩
      have hne : ¬ e.desc = -1 := fun hh => by
        rw [hiff.mpr hh] at hdd
        cases hdd
      omega
    · exact Or.inl ⟨hiff.mp hdd, rfl⟩
  have hkindnew : (e.desc = -1 ∧
      ∃ p0, (if e.is_drum then Tok.drumPitch e.pitch else Tok.pitch e.pitch) =
        .drumPitch p0) ∨ (0 ≤ e.desc ∧
      ∃ p0, (if e.is_drum then Tok.drumPitch e.pitch else Tok.pitch e.pitch) =
        .pitch p0) := by
    rcases hkindcase2 with ⟨h1, h2⟩ | ⟨h1, h2⟩
    · exact Or.inl ⟨h1, e.pitch, by simp [h2]⟩
    · exact Or.inr ⟨h1, e.pitch, by simp [h2]⟩
  have hfresh2 : ∀ e' ∈ evs, (e'.time : Int) = (e.time : Int) → e'.desc = e.desc →
      e'.is_drum = false →
      e'.pitch ∉ (if e.is_drum then ([] : List Nat) else [e.pitch]) := by
    intro e' he' h1 h2 h3
    cases hdd : e.is_drum with
    | true => simp [hdd]
    | false =>
      have htimeeq : e'.time = e.time := by exact_mod_cast h1
      have hne := hR e' he' htimeeq.symm h2.symm hdd h3
      simp only [hdd, Bool.false_eq_true, if_false, List.mem_singleton]
      exact fun hh => hne (hh ▸ rfl)
  have ht : (e.time : Int) ≠ (⟨-1, -1, -1, -2, tc0, tr0⟩ : EncSt).tick := by
    have hnn := Int.natCast_nonneg e.time
    dsimp only
    omega
  have hdesc2 : e.desc ≠ -2 := by omega
  rw [stepRows_new_tick cfg tpb _ e ht hdesc2]
  dsimp only
  have hb : (-1 : Int) < ((e.time / (tpb * 4) : Nat) : Int) := by
    have hnn := Int.natCast_nonneg (e.time / (tpb * 4))
    omega
  simp only [if_pos hb]
  have hm : (((e.time / (tpb * 4) : Nat) : Int) - -1).toNat = e.time / (tpb * 4) + 1 := by
    omega
  rw [hm, List.range_succ_eq_map]
  simp only [List.map_cons, List.map_map, List.cons_append]
  generalize (stepTempo cfg (⟨-1, -1, -1, -2, tc0, tr0⟩ : EncSt) e.time).1 = tc
  have hcomp : ((fun i : Nat => barRow cfg tc ((-1 : Int) + (i : Int) + 1)) ∘ Nat.succ) =
      fun i : Nat => barRow cfg tc ((0 : Int) + (i : Int) + 1) := by
    funext i
    simp only [Function.comp]
    congr 1
    push_cast
    ring
  have hfold : ∀ vsi : ValSt, vsi.err = 0 → vsi.bar = 0 → vsi.prev = .bar →
      vsi.pos = -1 → vsi.pitches = [] →
      ((((List.range (e.time / (tpb * 4))).map
          ((fun i : Nat => barRow cfg tc ((-1 : Int) + (i : Int) + 1)) ∘ Nat.succ)) ++
        [posRow cfg tc ((e.time / (tpb * 4) : Nat) : Int)
          (((e.time % (tpb * 4)) / (tpb / cfg.maxBeatRes) : Nat) : Int),
         progRow cfg tc ((e.time / (tpb * 4) : Nat) : Int)
          (((e.time % (tpb * 4)) / (tpb / cfg.maxBeatRes) : Nat) : Int) e.desc,
         noteRow cfg tc ((e.time / (tpb * 4) : Nat) : Int)
          (((e.time % (tpb * 4)) / (tpb / cfg.maxBeatRes) : Nat) : Int) e]).foldl
        valStep vsi) =
      ⟨0, (if e.is_drum then Tok.drumPitch e.pitch else Tok.pitch e.pitch),
       ((e.time / (tpb * 4) : Nat) : Int),
       (((e.time % (tpb * 4)) / (tpb / cfg.maxBeatRes) : Nat) : Int),
       if e.is_drum then [] else [e.pitch]⟩ := by
    intro vsi h0 h1 h2 h3 h4
    rw [hcomp, List.foldl_append]
    rw [val_barRows0 cfg tc (e.time / (tpb * 4)) vsi 0 h1 h2 h3 h4]
    have h0q : (0 : Int) + ((e.time / (tpb * 4) : Nat) : Int) =
        ((e.time / (tpb * 4) : Nat) : Int) := by omega
    rw [h0q]
    rw [val_posprognote cfg tc ⟨vsi.err, .bar, ((e.time / (tpb * 4) : Nat) : Int), -1, []⟩ e
      ((e.time / (tpb * 4) : Nat) : Int)
      (((e.time % (tpb * 4)) / (tpb / cfg.maxBeatRes) : Nat) : Int)
      rfl
      (by
        dsimp only
        have hnn := Int.natCast_nonneg ((e.time % (tpb * 4)) / (tpb / cfg.maxBeatRes))
        omega)
      rfl]
    rw [h0]
  refine ⟨_, _, rfl, ?_, ?_, ?_⟩
  · rw [hfold _ rfl (by norm_num [barRow]) rfl rfl rfl]
  · rw [hfold _ rfl (by norm_num [barRow]) rfl rfl rfl]
    exact ⟨⟨e.time, by trivial, hale, by trivial, by trivial⟩, by trivial, by trivial,
      hkindnew, hfresh2⟩
  · trivial

instance : DecidableRel R7 := fun a b => by
  unfold R7
  infer_instance

/-- Validity hypotheses under which the validator scores encoder output as
error-free: the encoder's own needs (non-empty tempo list, finest beat
resolution dividing the time division, real programs on melodic tracks, note
starts already on the sample grid), at least one event to encode
(`tokens_errors` reads the first row, and the empty row list raises), and no
melodic track with two simultaneous equal pitches (the duplicate-pitch check). -/
structure ValidatorOK (cfg : Config) (D : MidiDoc) : Prop where
  tempos_nonempty : D.tempo_changes ≠ []
  res_dvd : cfg.maxBeatRes ∣ D.ticks_per_beat
  nondrum_prog_nonneg : ∀ t ∈ D.instruments, t.is_drum = false → 0 ≤ t.program
  starts_aligned : ∀ t ∈ D.instruments, ∀ n ∈ t.notes,
    (D.ticks_per_beat / cfg.maxBeatRes) ∣ n.start
  has_event : docEvents cfg D ≠ []
  no_dup : List.Pairwise R7 (docEvents cfg D)

/-- C7: on every valid document, feeding `_midi_to_tokens` output straight into
`tokens_errors` yields zero — the encode succeeds and the validator reports
error ratio `0`: every adjacent token pair obeys the type graph, no duplicate
simultaneous pitch occurs on a track, positions strictly advance within a bar,
and the positional-encoding slots never regress. -/
theorem validator_zero_on_encode (cfg : Config) (cap : Nat) (D : MidiDoc)
    (h : ValidatorOK cfg D) :
    ∃ rows, (midi_to_tokens cfg cap D).2 = .ok rows ∧ tokens_errors rows = some 0 := by
  obtain ⟨t0, trest, hT⟩ : ∃ t0 trest, D.tempo_changes = t0 :: trest := by
    cases htc : D.tempo_changes with
    | nil => exact absurd htc h.tempos_nonempty
    | cons a l => exact ⟨a, l, rfl⟩
  obtain ⟨e, evs, hE⟩ : ∃ e evs, sortedEvents cfg D = e :: evs := by
    cases hs : sortedEvents cfg D with
    | nil =>
      exfalso
      apply h.has_event
      have hperm : List.Perm ([] : List Ev) (docEvents cfg D) := by
        rw [← hs]
        exact List.perm_insertionSort evLe (docEvents cfg D)
      exact hperm.symm.eq_nil
    | cons a l => exact ⟨a, l, rfl⟩
  have hfacts := docEvents_ok cfg D h.nondrum_prog_nonneg h.starts_aligned
  have hdr := docEvents_drum_iff cfg D h.nondrum_prog_nonneg
  have hokAll : ∀ x ∈ sortedEvents cfg D, EvOk7 cfg D.ticks_per_beat x ∧ -1 ≤ x.desc := by
    intro x hx
    have hx2 := (mem_sortedEvents_iff cfg D x).mp hx
    exact ⟨⟨(hfacts x hx2).2, hdr x hx2⟩, (hfacts x hx2).1⟩
  have hsorted := sortedEvents_pairwise_time cfg D
  have hR7 : List.Pairwise R7 (sortedEvents cfg D) := by
    have hperm : List.Perm (sortedEvents cfg D) (docEvents cfg D) :=
      List.perm_insertionSort evLe (docEvents cfg D)
    exact (hperm.pairwise_iff fun hab => R7_symm hab).mpr h.no_dup
  rw [hE] at hokAll hsorted hR7
  obtain ⟨r0, rs, hsplit, herr0, hinv1, htick1⟩ := val_first_block cfg D.ticks_per_beat
    t0.tempo trest e evs (hokAll e (by simp)).1 (hokAll e (by simp)).2
    (List.pairwise_cons.mp hR7).1
  refine ⟨encodeFrom cfg D.ticks_per_beat ⟨-1, -1, -1, -2, t0.tempo, trest⟩
    (sortedEvents cfg D), ?_, ?_⟩
  · unfold midi_to_tokens
    rw [hT]
  · rw [hE]
    rw [show encodeFrom cfg D.ticks_per_beat ⟨-1, -1, -1, -2, t0.tempo, trest⟩ (e :: evs) =
      (stepRows cfg D.ticks_per_beat ⟨-1, -1, -1, -2, t0.tempo, trest⟩ e).1 ++
      encodeFrom cfg D.ticks_per_beat
        (stepRows cfg D.ticks_per_beat ⟨-1, -1, -1, -2, t0.tempo, trest⟩ e).2 evs from rfl]
    rw [hsplit, List.cons_append, tokens_errors_cons, List.foldl_append]
    rw [val_loop cfg D.ticks_per_beat h.res_dvd evs _ _ hinv1
      (fun x hx => hokAll x (by simp [hx]))
      (fun x hx => by
        rw [htick1]
        exact_mod_cast (List.pairwise_cons.mp hsorted).1 x hx)
      (List.pairwise_cons.mp hsorted).2 (List.pairwise_cons.mp hR7).2]
    rw [herr0]
    norm_num

/-- The round-trip document also satisfies the validator's hypotheses; applying
the C7 theorem to it gives a concrete error-free encode. -/
theorem validator_zero_on_encode_witness :
    ValidatorOK scenarioCfg rtDoc ∧
    (∃ rows, (midi_to_tokens scenarioCfg 60 rtDoc).2 = .ok rows ∧
      tokens_errors rows = some 0) := by
  have hOK : ValidatorOK scenarioCfg rtDoc :=
    ⟨by decide, by decide, by decide, by decide, by decide, by decide⟩
  exact ⟨hOK, validator_zero_on_encode scenarioCfg 60 rtDoc hOK⟩

end MuMIDIVerif
